import Mathlib

/-!
# Milestone solidifier: a shallow embedding of `src/plugins/tangle/solidifier.go`

This file embeds the milestone-solidifier plugin of the hornet repository
(`plugins/tangle/solidifier.go`) as executable Lean definitions and proves
properties of the embedding.

Modelling conventions:
* Transaction hashes are `String`s; the transaction cache is a list of
  `Transaction` records looked up by hash (`tangle.GetCachedTransaction`).
* Go `map`s used as sets are embedded as duplicate-free `List`s
  (`insertSet`); `map[string]bool` becomes an association list.
* Go map iteration order is nondeterministic; the embedding fixes one legal
  schedule (list order, with entries added during an iteration processed in
  the next sweep, which Go's range-over-map permits).
* The one-shot abort channel is embedded as a predicate `abortFn : Nat → Bool`
  on the number of `select` polls performed so far.
* Unbounded `for` loops are given explicit fuel; running out of fuel is a
  distinguished outcome (`outOfFuel`), and termination theorems show fuel
  sufficient for the loops of the source.
* `log.Panicf` (which kills the process) is the distinguished outcome
  `panicked`.
* External collaborators that the plugin only calls
  (`tangle.IsMaybeMilestone`, bundle lookup and `tangle.CheckIfMilestone`,
  `gossip.RequestMulti`, `confirmMilestone`, `processValidMilestone`,
  the events) are embedded as per-transaction data and as entries of an
  event trace.
-/

/-- A transaction of the tangle, as seen by the solidifier.
`maybeMilestone` embeds the external prefilter `tangle.IsMaybeMilestone`,
and `bundleMilestone` embeds the external bundle lookup plus
`tangle.CheckIfMilestone`: `none` means the bundle of this tail is missing
(`searchMissingMilestone` panics), `some none` means the bundle does not
validate as a milestone (or the check errors), `some (some i)` means the
bundle validates as a milestone of index `i`. -/
structure Transaction where
  hash : String
  trunk : String
  branch : String
  isTail : Bool
  solid : Bool
  maybeMilestone : Bool
  bundleMilestone : Option (Option Nat)
  deriving Repr, DecidableEq

/-- An event emitted to the outside world during a run. -/
inductive Event where
  | transactionSolid (hash : String)
  | processValidMilestone (index : Nat)
  | confirmMilestone (index : Nat)
  | solidMilestoneChanged (index : Nat)
  deriving Repr, DecidableEq

/-- The shared state the solidifier reads and writes: the transaction cache,
the solid entry points of the snapshot, the persistent approver index
(`tangle.GetApprovers(h).Add`), and the `tangle.IsNodeSynced()` flag. -/
structure World where
  cache : List Transaction
  solidEntryPoints : List String
  approverIndex : List (String × String)
  nodeSynced : Bool
  deriving Repr, DecidableEq

/-- `tangle.GetCachedTransaction`: look a transaction up by hash; `none`
embeds a handle with `Exists() == false`. -/
def getCachedTransaction (w : World) (h : String) : Option Transaction :=
  w.cache.find? (fun t => t.hash == h)

/-- `tangle.SolidEntryPointsContain`. -/
def solidEntryPointsContain (w : World) (h : String) : Bool :=
  w.solidEntryPoints.contains h

/-- `tx.SetSolid(true)` on the cached transaction with hash `h`. -/
def setSolid (w : World) (h : String) : World :=
  { w with cache := w.cache.map (fun t => if t.hash == h then { t with solid := true } else t) }

/-- `tangle.GetApprovers(approvee).Add(approver)` (persistent store). -/
def addApproverIndex (w : World) (approvee approver : String) : World :=
  { w with approverIndex :=
      if (approvee, approver) ∈ w.approverIndex then w.approverIndex
      else (approvee, approver) :: w.approverIndex }

/-- The approvee hashes of a transaction: trunk first, then the branch only
if distinct from the trunk (solidifier.go lines 39-42, 124-127, 393-396). -/
def approveeHashes (t : Transaction) : List String :=
  if t.trunk == t.branch then [t.trunk] else [t.trunk, t.branch]

/-- Add to a list used as a set (Go `map[string]struct{}` insertion). -/
def insertSet (h : String) (l : List String) : List String :=
  if h ∈ l then l else h :: l

/-- Remove from a list used as a set (Go `delete`). -/
def removeSet (l : List String) (h : String) : List String :=
  l.filter (fun x => !(x == h))

/-- Lookup in an association list embedding `map[string]bool`. -/
def lookupChecked (l : List (String × Bool)) (h : String) : Option Bool :=
  (l.find? (fun p => p.1 == h)).map (·.2)

/-- The transaction is present in the cache and its solid flag is set. -/
def cachedSolid (w : World) (h : String) : Prop :=
  ∃ t, getCachedTransaction w h = some t ∧ t.solid = true

/-- Result of `checkSolidity`: the two returned booleans, the updated shared
state, and the events emitted. -/
structure CheckResult where
  solid : Bool
  newlySolid : Bool
  world : World
  events : List Event
  deriving Repr, DecidableEq

/-- The approvee loop of `checkSolidity` (solidifier.go lines 44-63): walk
the approvee hashes; an approvee that is a solid entry point is skipped; at
the first approvee that is absent or not solid, set `isSolid = false`,
register the approver in the persistent approver index when
`addToApproversCache` is set, and break. -/
def checkApproveesLoop (w : World) (selfHash : String) (add : Bool) :
    List String → Bool × World
  | [] => (true, w)
  | a :: rest =>
    if solidEntryPointsContain w a then checkApproveesLoop w selfHash add rest
    else
      match getCachedTransaction w a with
      | some t =>
        if t.solid then checkApproveesLoop w selfHash add rest
        else (false, if add then addApproverIndex w a selfHash else w)
      | none => (false, if add then addApproverIndex w a selfHash else w)

/-- `checkSolidity` (solidifier.go lines 29-73): if the transaction is
already solid return `(true, false)`; otherwise check the approvees, and if
all of them are solid entry points or present-and-solid, set the solid flag,
emit `TransactionSolid` and return `(true, true)`; otherwise `(false, false)`.
The `RegisterConsumer`/`Release` pair on the handle is refcount-neutral and
is not modelled. -/
def checkSolidity (w : World) (t : Transaction) (add : Bool) : CheckResult :=
  if t.solid then ⟨true, false, w, []⟩
  else
    match checkApproveesLoop w t.hash add (approveeHashes t) with
    | (true, w1) => ⟨true, true, setSolid w1 t.hash, [Event.transactionSolid t.hash]⟩
    | (false, w1) => ⟨false, false, w1, []⟩

/-- Per-walk working state of phase 1 (collection) of `solidQueueCheck`
(solidifier.go lines 97-102), plus the ghost field `processed` recording
the hashes drained from `txsToTraverse`, and the number of abort-signal
polls performed so far. -/
structure P1State where
  txsChecked : List (String × Bool)
  txsToTraverse : List String
  approvers : List (String × List String)
  entryTxs : List String
  txsToRequest : List String
  processed : List String
  pollCnt : Nat
  deriving Repr, DecidableEq

/-- `registerApproverOfApprovee` (solidifier.go lines 75-85): record
`approver` in the per-walk approver set of `approvee`. -/
def registerApprover (aps : List (String × List String)) (approvee approver : String) :
    List (String × List String) :=
  match aps.find? (fun p => p.1 == approvee) with
  | some _ => aps.map (fun p => if p.1 == approvee then (p.1, insertSet approver p.2) else p)
  | none => (approvee, [approver]) :: aps

/-- Per-walk approver set of an approvee (`approvers[approveeHash]`). -/
def lookupApprovers (aps : List (String × List String)) (approvee : String) : List String :=
  match aps.find? (fun p => p.1 == approvee) with
  | some p => p.2
  | none => []

/-- Processing of one approvee hash in phase 1 of `solidQueueCheck`
(solidifier.go lines 129-168). `selfHash` is the hash of the transaction
being expanded, the boolean is its running `isEntryTx` flag. -/
def processApprovee (w : World) (selfHash : String) (sb : P1State × Bool) (a : String) :
    P1State × Bool :=
  if solidEntryPointsContain w a then sb
  else
    match lookupChecked sb.1.txsChecked a with
    | some isSolid =>
      ({ sb.1 with approvers := registerApprover sb.1.approvers a selfHash }, sb.2 && isSolid)
    | none =>
      match getCachedTransaction w a with
      | none =>
        ({ sb.1 with approvers := registerApprover sb.1.approvers a selfHash,
                     txsToRequest := insertSet a sb.1.txsToRequest,
                     txsChecked := (a, false) :: sb.1.txsChecked }, false)
      | some t =>
        if t.solid then
          ({ sb.1 with approvers := registerApprover sb.1.approvers a selfHash,
                       txsChecked := (a, t.solid) :: sb.1.txsChecked }, sb.2)
        else
          ({ sb.1 with approvers := registerApprover sb.1.approvers a selfHash,
                       txsChecked := (a, t.solid) :: sb.1.txsChecked,
                       txsToTraverse := insertSet a sb.1.txsToTraverse }, false)

/-- Processing of one drained hash in phase 1 (solidifier.go lines 116-174):
look the transaction up (absence is a fatal panic), fold over its approvee
hashes, and add it to `entryTxs` when every approvee left `isEntryTx` true. -/
def processTx (w : World) (st : P1State) (h : String) : Option P1State :=
  match getCachedTransaction w h with
  | none => none
  | some t =>
    let st0 := { st with processed := insertSet h st.processed }
    let (st1, isEntry) := (approveeHashes t).foldl (processApprovee w t.hash) (st0, true)
    some (if isEntry then { st1 with entryTxs := insertSet t.hash st1.entryTxs } else st1)

/-- Outcome of the phase-1 drain loop. -/
inductive P1Out where
  | outOfFuel
  | panicked
  | aborted (st : P1State)
  | finished (st : P1State)
  deriving Repr, DecidableEq

/-- The phase-1 drain loop of `solidQueueCheck` (solidifier.go lines
106-176): while `txsToTraverse` is non-empty, poll the abort signal, drain
one hash and process it. -/
def phase1Loop (w : World) (abortFn : Nat → Bool) : Nat → P1State → P1Out
  | fuel, st =>
    match st.txsToTraverse with
    | [] => .finished st
    | h :: rest =>
      match fuel with
      | 0 => .outOfFuel
      | fuel + 1 =>
        if abortFn st.pollCnt then .aborted { st with pollCnt := st.pollCnt + 1 }
        else
          match processTx w { st with txsToTraverse := rest, pollCnt := st.pollCnt + 1 } h with
          | none => .panicked
          | some st' => phase1Loop w abortFn fuel st'

/-- State of phase 2 (propagation) of `solidQueueCheck`: the evolving
shared state, the remaining `entryTxs` set, the events emitted so far, the
transactions submitted to the future-cone worker pool, and the poll count. -/
structure P2State where
  world : World
  entryTxs : List String
  events : List Event
  submits : List String
  pollCnt : Nat
  deriving Repr, DecidableEq

/-- Outcome of one phase-2 sweep over a snapshot of `entryTxs`. -/
inductive P2PassOut where
  | panicked
  | aborted (st : P2State)
  | done (st : P2State) (newSolidTxFound : Bool)
  deriving Repr, DecidableEq

/-- One sweep of the phase-2 loop of `solidQueueCheck` (solidifier.go lines
200-230) over a snapshot of `entryTxs`: poll the abort signal, fetch the
entry transaction (absence is a fatal panic) and run `checkSolidity` with
`addToApproversCache == false`; if solid, add all recorded approvers of the
hash to `entryTxs`, submit to the future-cone worker pool when newly solid
and the node is synced, remove the hash, and set `newSolidTxFound`. -/
def phase2Pass (approvers : List (String × List String)) (abortFn : Nat → Bool) :
    List String → P2State → Bool → P2PassOut
  | [], st, ns => .done st ns
  | e :: rest, st, ns =>
    if abortFn st.pollCnt then .aborted { st with pollCnt := st.pollCnt + 1 }
    else
      match getCachedTransaction st.world e with
      | none => .panicked
      | some t =>
        if (checkSolidity st.world t false).solid then
          phase2Pass approvers abortFn rest
            { world := (checkSolidity st.world t false).world,
              entryTxs := removeSet
                ((lookupApprovers approvers e).foldl (fun l a => insertSet a l) st.entryTxs) e,
              events := st.events ++ (checkSolidity st.world t false).events,
              submits := if (checkSolidity st.world t false).newlySolid && st.world.nodeSynced
                then e :: st.submits else st.submits,
              pollCnt := st.pollCnt + 1 } true
        else
          phase2Pass approvers abortFn rest
            { st with world := (checkSolidity st.world t false).world,
                      events := st.events ++ (checkSolidity st.world t false).events,
                      pollCnt := st.pollCnt + 1 } ns

/-- Outcome of the phase-2 outer loop. -/
inductive P2Out where
  | outOfFuel
  | panicked
  | aborted (st : P2State)
  | done (st : P2State)
  deriving Repr, DecidableEq

/-- The phase-2 outer loop of `solidQueueCheck` (solidifier.go lines
194-231): repeat sweeps as long as a sweep found a solid transaction. -/
def phase2Loop (approvers : List (String × List String)) (abortFn : Nat → Bool) :
    Nat → P2State → P2Out
  | fuel, st =>
    match phase2Pass approvers abortFn st.entryTxs st false with
    | .panicked => .panicked
    | .aborted st' => .aborted st'
    | .done st' ns =>
      if ns then
        match fuel with
        | 0 => .outOfFuel
        | fuel + 1 => phase2Loop approvers abortFn fuel st'
      else .done st'

/-- Outcome of `solidQueueCheck`: the two returned booleans, the final
shared state, the events emitted, the hashes passed to
`gossip.RequestMulti` (empty when it was not called), and the transactions
submitted to the future-cone worker pool. -/
inductive WalkOut where
  | outOfFuel
  | panicked
  | done (solid aborted : Bool) (world : World) (events : List Event)
      (requested : List String) (submits : List String)
  deriving Repr, DecidableEq

/-- The initial phase-1 state: `txsToTraverse` seeded with the milestone
tail hash (solidifier.go line 102). -/
def initialP1State (tailHash : String) : P1State :=
  ⟨[], [tailHash], [], [], [], [], 0⟩

/-- `solidQueueCheck` (solidifier.go lines 90-238): phase 1 collects the
sub-DAG below the milestone tail; if any transaction was missing, a single
batched `gossip.RequestMulti` is issued and the walk returns
`(false, false)`; an empty set of entry transactions is a fatal panic;
otherwise phase 2 propagates solidity from the entry transactions, and the
walk is solid iff `entryTxs` is empty at the fixpoint. The
`RegisterConsumer`/deferred `Release` pair on the tail handle is
refcount-neutral and is not modelled. -/
def solidQueueCheck (w : World) (msIndex : Nat) (tailHash : String)
    (abortFn : Nat → Bool) (fuel1 fuel2 : Nat) : WalkOut :=
  match phase1Loop w abortFn fuel1 (initialP1State tailHash) with
  | .outOfFuel => .outOfFuel
  | .panicked => .panicked
  | .aborted _ => .done false true w [] [] []
  | .finished st =>
    match st.txsToRequest with
    | _ :: _ => .done false false w [] st.txsToRequest []
    | [] =>
      match st.entryTxs with
      | [] => .panicked
      | _ :: _ =>
        match phase2Loop st.approvers abortFn fuel2 ⟨w, st.entryTxs, [], [], st.pollCnt⟩ with
        | .outOfFuel => .outOfFuel
        | .panicked => .panicked
        | .aborted st2 => .done false true st2.world st2.events [] st2.submits
        | .done st2 => .done st2.entryTxs.isEmpty false st2.world st2.events [] st2.submits

/-- Per-search working state of `searchMissingMilestone`, plus the list of
milestone indices passed to `processValidMilestone` and the poll count. -/
structure SearchState where
  txsChecked : List String
  txsToTraverse : List String
  registered : List Nat
  found : Bool
  pollCnt : Nat
  deriving Repr, DecidableEq

/-- Processing of one approvee hash in `searchMissingMilestone`
(solidifier.go lines 399-456). The boolean of the result is the `break` of
line 444: a milestone whose index lies strictly between
`solidMilestoneIndex` and `startMilestoneIndex` was found and registered,
and the remaining approvees of the current transaction are skipped. A
`none` result is a fatal panic (missing transaction or missing bundle).
Note that a non-tail approvee is skipped entirely (lines 415-418), and that
a tail approvee that fails the prefilter, whose bundle does not validate,
or whose index is out of range is traversed and marked checked
(lines 449-455). -/
def searchApprovee (w : World) (solidIdx startIdx : Nat) (st : SearchState) (a : String) :
    Option (SearchState × Bool) :=
  if solidEntryPointsContain w a then some (st, false)
  else if a ∈ st.txsChecked then some (st, false)
  else
    match getCachedTransaction w a with
    | none => none
    | some t =>
      if !t.isTail then some (st, false)
      else
        let fallThrough : Option (SearchState × Bool) :=
          some ({ st with txsToTraverse := insertSet a st.txsToTraverse,
                          txsChecked := insertSet a st.txsChecked }, false)
        if t.maybeMilestone then
          match t.bundleMilestone with
          | none => none
          | some none => fallThrough
          | some (some msIndex) =>
            if solidIdx < msIndex ∧ msIndex < startIdx then
              some ({ st with found := true, registered := st.registered ++ [msIndex] }, true)
            else fallThrough
        else fallThrough

/-- The approvee loop of one visited transaction in `searchMissingMilestone`
(lines 399-456): stop at the first approvee that registered an in-range
milestone (the `break`). -/
def searchApprovees (w : World) (solidIdx startIdx : Nat) :
    List String → SearchState → Option SearchState
  | [], st => some st
  | a :: rest, st =>
    match searchApprovee w solidIdx startIdx st a with
    | none => none
    | some (st', true) => some st'
    | some (st', false) => searchApprovees w solidIdx startIdx rest st'

/-- Outcome of one sweep of `searchMissingMilestone` over a snapshot of
`txsToTraverse`. -/
inductive SearchSweepOut where
  | panicked
  | aborted (registered : List Nat)
  | ok (st : SearchState)
  deriving Repr, DecidableEq

/-- One sweep of `searchMissingMilestone` over a snapshot of
`txsToTraverse` (solidifier.go lines 379-457): poll the abort signal, look
the drained transaction up (absence is a fatal panic) and scan its
approvees. -/
def searchSweep (w : World) (solidIdx startIdx : Nat) (abortFn : Nat → Bool) :
    List String → SearchState → SearchSweepOut
  | [], st => .ok st
  | h :: rest, st =>
    if abortFn st.pollCnt then .aborted st.registered
    else
      let st := { st with pollCnt := st.pollCnt + 1 }
      match getCachedTransaction w h with
      | none => .panicked
      | some t =>
        match searchApprovees w solidIdx startIdx (approveeHashes t) st with
        | none => .panicked
        | some st' => searchSweep w solidIdx startIdx abortFn rest st'

/-- Outcome of `searchMissingMilestone`: the returned pair `(found,
aborted)` together with the milestone indices passed to
`processValidMilestone` and (for `finished`) the ghost trace of checked
hashes. -/
inductive SearchOut where
  | panicked
  | aborted (registered : List Nat)
  | finished (found : Bool) (registered : List Nat) (checked : List String)
  deriving Repr, DecidableEq

/-- The outer loop of `searchMissingMilestone` (line 377): at most
`maxSearchDepth` sweeps, while `txsToTraverse` is non-empty. -/
def searchLoop (w : World) (solidIdx startIdx : Nat) (abortFn : Nat → Bool) :
    Nat → SearchState → SearchOut
  | depth, st =>
    match st.txsToTraverse with
    | [] => .finished st.found st.registered st.txsChecked
    | _ :: _ =>
      match depth with
      | 0 => .finished st.found st.registered st.txsChecked
      | depth + 1 =>
        match searchSweep w solidIdx startIdx abortFn st.txsToTraverse
            { st with txsToTraverse := [] } with
        | .panicked => .panicked
        | .aborted reg => .aborted reg
        | .ok st' => searchLoop w solidIdx startIdx abortFn depth st'

/-- `searchMissingMilestone` (solidifier.go lines 362-462), seeded with the
milestone tail hash. The `RegisterConsumer`/deferred `Release` pair on the
tail handle is refcount-neutral and is not modelled. -/
def searchMissingMilestone (w : World) (solidIdx startIdx : Nat) (tailHash : String)
    (maxSearchDepth : Nat) (abortFn : Nat → Bool) : SearchOut :=
  searchLoop w solidIdx startIdx abortFn maxSearchDepth ⟨[], [tailHash], [], false, 0⟩

/-- A known milestone: its index and the hash of its tail transaction
(`bundle.GetMilestoneIndex()` and `bundle.GetTail()`). -/
structure Milestone where
  index : Nat
  tailHash : String
  deriving Repr, DecidableEq

/-- Modelled from the spec: `find_closest_next_milestone(index) → milestone
| none` — `tangle.FindClosestNextMilestone` is not part of this source
file; per the spec the orchestrator uses it to "find the closest next
non-solid milestone after current_solid", so it is modelled as the known
milestone of smallest index strictly greater than the given index. -/
def findClosestNextMilestone (ms : List Milestone) (index : Nat) : Option Milestone :=
  ms.foldl
    (fun best m =>
      if index < m.index then
        match best with
        | none => some m
        | some b => if m.index < b.index then some m else best
      else best)
    none

/-- Process-wide state read by `solidifyMilestone`: the shared world, the
orchestrator's `solidifierMilestoneIndex`, the confirmed tip
(`tangle.GetSolidMilestoneIndex`), the highest known milestone index
(`tangle.GetLatestMilestoneIndex`) and the known milestones. -/
structure Node where
  world : World
  solidifierMilestoneIndex : Nat
  solidMilestoneIndex : Nat
  latestMilestoneIndex : Nat
  milestones : List Milestone
  deriving Repr, DecidableEq

/-- Observable outcome of one call to `solidifyMilestone`:
whether `abortMilestoneSolidification` was invoked, whether
`solidifierLock` was acquired, the net change to the reference count of the
milestone-tail handle obtained via `GetTail` (each `GetTail` and
`RegisterConsumer` is +1, each `Release` is −1; callees are
balanced by their deferred releases), the final
`solidifierMilestoneIndex`, the final shared state, the emitted events,
whether a retry trigger was submitted to the worker pool, the outcome of
the inner walk, and whether the call panicked. -/
structure SolidifyResult where
  abortCalled : Bool
  lockAcquired : Bool
  tailRefDelta : Int
  finalIndex : Nat
  world : World
  events : List Event
  retriggered : Bool
  walk : Option WalkOut
  panicked : Bool
  deriving Repr, DecidableEq

/-- `solidifyMilestone` (solidifier.go lines 250-360). The entry guard
(line 270) returns immediately when another solidification with a smaller
(older) index is already running and the trigger index is non-zero and
larger; otherwise `abortMilestoneSolidification` is invoked and the
solidifier lock is taken. Under the lock: return if the latest milestone is
already solid or no next milestone exists; otherwise run the walk on the
closest next milestone. On a non-solid walk the tail handle is released and
the index reset (lines 307-318). On a solid walk with a gap the
missing-milestone search runs (the re-read of `FindClosestNextMilestone`
yields the same milestone in this sequential embedding, so the comparison
of line 325 always succeeds), a `!found && !aborted` search is a fatal
panic (line 334), the index is reset and a retry submitted — without
releasing the tail handle (lines 320-343). On a solid contiguous walk the
milestone is confirmed, the tail released, the solid milestone advanced,
`SolidMilestoneChanged` emitted, the index reset and a retry submitted
(lines 346-359). `confirmMilestone` and `processValidMilestone` are
external calls recorded as events. -/
def solidifyMilestone (nd : Node) (trigger : Nat) (abortFn : Nat → Bool)
    (fuel1 fuel2 searchDepth : Nat) : SolidifyResult :=
  if nd.solidifierMilestoneIndex ≠ 0 ∧ trigger ≠ 0 ∧ nd.solidifierMilestoneIndex < trigger then
    ⟨false, false, 0, nd.solidifierMilestoneIndex, nd.world, [], false, none, false⟩
  else
    if nd.solidMilestoneIndex = nd.latestMilestoneIndex ∧ nd.latestMilestoneIndex ≠ 0 then
      ⟨true, true, 0, nd.solidifierMilestoneIndex, nd.world, [], false, none, false⟩
    else
      match findClosestNextMilestone nd.milestones nd.solidMilestoneIndex with
      | none => ⟨true, true, 0, nd.solidifierMilestoneIndex, nd.world, [], false, none, false⟩
      | some m =>
        match solidQueueCheck nd.world m.index m.tailHash abortFn fuel1 fuel2 with
        | .outOfFuel => ⟨true, true, 1, m.index, nd.world, [], false, some .outOfFuel, false⟩
        | .panicked => ⟨true, true, 1, m.index, nd.world, [], false, some .panicked, true⟩
        | .done solid ab w' ev rq sb =>
          if solid = false then
            ⟨true, true, 0, 0, w', ev, false, some (.done solid ab w' ev rq sb), false⟩
          else if nd.solidMilestoneIndex + 1 < m.index then
            match searchMissingMilestone w' nd.solidMilestoneIndex m.index m.tailHash searchDepth abortFn with
            | .panicked =>
              ⟨true, true, 1, m.index, w', ev, false, some (.done solid ab w' ev rq sb), true⟩
            | .aborted reg =>
              ⟨true, true, 1, 0, w', ev ++ reg.map Event.processValidMilestone, true,
                some (.done solid ab w' ev rq sb), false⟩
            | .finished found reg _ =>
              if found then
                ⟨true, true, 1, 0, w', ev ++ reg.map Event.processValidMilestone, true,
                  some (.done solid ab w' ev rq sb), false⟩
              else
                ⟨true, true, 1, m.index, w', ev ++ reg.map Event.processValidMilestone, false,
                  some (.done solid ab w' ev rq sb), true⟩
          else
            ⟨true, true, 0, 0, w',
              ev ++ [Event.confirmMilestone m.index, Event.solidMilestoneChanged m.index],
              true, some (.done solid ab w' ev rq sb), false⟩

/-! ## Concrete scenarios used by counterexamples and witnesses -/

/-- A world with entry point `E` and two non-solid transactions
`A (trunk = branch = E)` and `T (trunk = branch = A)`. -/
def wAbort : World :=
  ⟨[⟨"A", "E", "E", true, false, false, none⟩, ⟨"T", "A", "A", true, false, false, none⟩],
   ["E"], [], false⟩

/-- An abort signal that fires from the fourth poll on. -/
def abortFromPoll3 : Nat → Bool := fun n => decide (3 ≤ n)

/-- Node state with a solidification of index 5 already running and the
latest milestone already solid. -/
def ndRunning5 : Node := ⟨⟨[], [], [], false⟩, 5, 1, 1, []⟩

/-- A world whose milestone tail `T` is solid with a solid parent `M` that
is a valid milestone of index 4 (strictly between confirmed tip 3 and
target 6). -/
def wGapped : World :=
  ⟨[⟨"M", "E", "E", true, true, true, some (some 4)⟩,
    ⟨"T", "M", "M", true, true, false, none⟩],
   ["E"], [], false⟩

/-- Node state: confirmed tip 3, latest 7, one known milestone of index 6
whose tail is `T` in `wGapped` — a solid walk with a gap. -/
def ndGapped : Node := ⟨wGapped, 0, 3, 7, [⟨6, "T"⟩]⟩

/-- A world for the missing-milestone search containing two registrable
milestones: the search seed `T` approves `A` (a plain tail) and the
milestone tail `M1` (index 4); `A` approves the milestone tail `M2`
(index 5). -/
def wTwoMilestones : World :=
  ⟨[⟨"M1", "E", "E", true, true, true, some (some 4)⟩,
    ⟨"M2", "E", "E", true, true, true, some (some 5)⟩,
    ⟨"A", "M2", "M2", true, true, false, none⟩,
    ⟨"T", "A", "M1", true, true, false, none⟩],
   ["E"], [], false⟩

/-- A world for the missing-milestone search whose seed `T` approves only
the non-tail transaction `N`. -/
def wNonTail : World :=
  ⟨[⟨"N", "E", "E", false, true, false, none⟩, ⟨"T", "N", "N", true, true, false, none⟩],
   ["E"], [], false⟩

/-! ## C1 — the entry guard of `solidifyMilestone` -/

/-- C1, counterexample: the claim says that with an attempt of index 5
running, a call with trigger index 3 (strictly less) returns immediately
without firing the abort signal and without acquiring the solidifier lock.
On the code (line 270 guards on `solidifierMilestoneIndex <
msIndexEmptiedQueue`, the opposite comparison) this call invokes
`abortMilestoneSolidification` and acquires the lock. -/
theorem solidifyMilestone_guard_cex :
    ndRunning5.solidifierMilestoneIndex = 5 ∧
    (solidifyMilestone ndRunning5 3 (fun _ => false) 1 1 1).abortCalled = true ∧
    (solidifyMilestone ndRunning5 3 (fun _ => false) 1 1 1).lockAcquired = true := by
  refine ⟨rfl, ?_, ?_⟩ <;> rfl

/-- C1, amended: `solidifyMilestone` returns immediately — without invoking
`abortMilestoneSolidification` and without acquiring `solidifierLock` —
exactly when an attempt is running (`solidifierMilestoneIndex ≠ 0`), the
trigger index is non-zero, and the running index is strictly *less* than
the trigger (the running attempt is the older one); in every other case it
first invokes `abortMilestoneSolidification` and acquires the lock. -/
theorem solidifyMilestone_guard (nd : Node) (trigger : Nat) (abortFn : Nat → Bool)
    (f1 f2 sd : Nat) :
    (nd.solidifierMilestoneIndex ≠ 0 ∧ trigger ≠ 0 ∧ nd.solidifierMilestoneIndex < trigger →
      solidifyMilestone nd trigger abortFn f1 f2 sd =
        ⟨false, false, 0, nd.solidifierMilestoneIndex, nd.world, [], false, none, false⟩) ∧
    (¬(nd.solidifierMilestoneIndex ≠ 0 ∧ trigger ≠ 0 ∧ nd.solidifierMilestoneIndex < trigger) →
      (solidifyMilestone nd trigger abortFn f1 f2 sd).abortCalled = true ∧
      (solidifyMilestone nd trigger abortFn f1 f2 sd).lockAcquired = true) := by
  constructor
  · intro h
    simp only [solidifyMilestone, if_pos h]
  · intro h
    simp only [solidifyMilestone, if_neg h]
    repeat' split
    all_goals exact ⟨rfl, rfl⟩

/-- C1, witness for the amended theorem at concrete inputs: a running index
5 with trigger 7 returns immediately, and trigger 3 fires the abort. -/
theorem solidifyMilestone_guard_witness :
    solidifyMilestone ndRunning5 7 (fun _ => false) 1 1 1 =
      ⟨false, false, 0, 5, ndRunning5.world, [], false, none, false⟩ ∧
    (solidifyMilestone ndRunning5 3 (fun _ => false) 1 1 1).abortCalled = true := by
  constructor
  · exact (solidifyMilestone_guard ndRunning5 7 (fun _ => false) 1 1 1).1
      (by refine ⟨by decide, by decide, by decide⟩)
  · exact ((solidifyMilestone_guard ndRunning5 3 (fun _ => false) 1 1 1).2 (by decide)).1

/-! ## C4 — the milestone tail handle on the solid-but-gapped path -/

set_option maxHeartbeats 1000000 in
/-- C4: on the solid-but-gapped path (solidifier.go lines 320-343) the tail
handle acquired by `GetTail` (line 305) is *not* released before the
return: the walk is solid (`walk = done true …`), the gap branch runs the
missing-milestone search (which registers milestone 4 and keeps the run
panic-free), and the net reference-count change of the tail handle is +1
instead of 0 — unlike the non-solid path (line 316) and the contiguous
path (line 349), which release it. -/
theorem solidifyMilestone_gapped_tail_handle_leak :
    solidifyMilestone ndGapped 0 (fun _ => false) 3 3 3 =
      ⟨true, true, 1, 0, wGapped, [Event.processValidMilestone 4], true,
        some (.done true false wGapped [] [] []), false⟩ ∧
    ndGapped.solidMilestoneIndex + 1 < 6 := by
  exact ⟨by decide, by decide⟩

/-! ## C5 — registering an in-range milestone does not stop the search -/

/-- C5, counterexample: the claim says the entire search stops as soon as
an in-range milestone is registered. On `wTwoMilestones` the search
registers milestone 4 (found from the seed `T`) and then *continues*: it
expands `A` into the frontier and registers milestone 5 from it — the
`break` of solidifier.go line 444 only leaves the approvee loop of the
current transaction. -/
theorem searchMissingMilestone_continues_cex :
    searchMissingMilestone wTwoMilestones 3 6 "T" 120000 (fun _ => false) =
      .finished true [4, 5] ["A"] := by
  rfl

/-- C5, amended: when a bundle validates as a milestone whose index lies
strictly between the confirmed index and the target, it is registered
through `processValidMilestone` and only the scan of the *current
transaction's* remaining approvees stops (the milestone is not added to the
traversal set); the sweep then continues with the remaining frontier
transactions, which may register further milestones. -/
theorem searchMissingMilestone_register_breaks_current_tx
    (w : World) (si ti : Nat) (st : SearchState) (a : String) (rest : List String)
    (t : Transaction) (idx : Nat)
    (hep : solidEntryPointsContain w a = false) (hchk : a ∉ st.txsChecked)
    (hl : getCachedTransaction w a = some t) (htail : t.isTail = true)
    (hmm : t.maybeMilestone = true) (hbm : t.bundleMilestone = some (some idx))
    (hlo : si < idx) (hhi : idx < ti) :
    searchApprovees w si ti (a :: rest) st =
      some { st with found := true, registered := st.registered ++ [idx] } ∧
    (∀ (abortFn : Nat → Bool) (h : String) (hs : List String) (st2 st3 : SearchState)
        (t2 : Transaction),
      abortFn st2.pollCnt = false → getCachedTransaction w h = some t2 →
      searchApprovees w si ti (approveeHashes t2) { st2 with pollCnt := st2.pollCnt + 1 } =
        some st3 →
      searchSweep w si ti abortFn (h :: hs) st2 = searchSweep w si ti abortFn hs st3) := by
  constructor
  · simp only [searchApprovees, searchApprovee, hep, hchk, hl, htail, hmm, hbm]
    simp [if_pos (And.intro hlo hhi)]
  · intro abortFn h hs st2 st3 t2 hab hl2 happ
    simp only [searchSweep, hab, hl2, happ]
    simp

/-- C5, witness for the amended theorem: the first approvee of the seed of
`wTwoMilestones` read in isolation — `M1`, an in-range milestone — is
registered and breaks the scan. -/
theorem searchMissingMilestone_register_breaks_current_tx_witness :
    searchApprovees wTwoMilestones 3 6 ["M1", "A"] ⟨[], [], [], false, 0⟩ =
      some ⟨[], [], [4], true, 0⟩ := by
  have h := (searchMissingMilestone_register_breaks_current_tx wTwoMilestones 3 6
    ⟨[], [], [], false, 0⟩ "M1" ["A"]
    ⟨"M1", "E", "E", true, true, true, some (some 4)⟩ 4
    (by decide) (by decide) (by decide) (by decide) (by decide) (by decide)
    (by decide) (by decide)).1
  exact h

/-! ## C6 — expansion in the search is gated on `IsTail` -/

/-- C6, counterexample: the claim says expansion continues through every
approvee that is not an entry point, not checked and not the in-range
milestone, regardless of whether it is a tail. On `wNonTail` the seed's
only approvee `N` is such an approvee but is not a tail: the search skips
it entirely (solidifier.go lines 415-418) — the final traversal/checked
trace is empty and nothing was registered. -/
theorem searchMissingMilestone_nontail_cex :
    searchMissingMilestone wNonTail 3 6 "T" 120000 (fun _ => false) =
      .finished false [] [] ∧
    getCachedTransaction wNonTail "N" =
      some ⟨"N", "E", "E", false, true, false, none⟩ ∧
    solidEntryPointsContain wNonTail "N" = false := by
  refine ⟨?_, ?_, ?_⟩ <;> rfl

/-- C6, amended: for an approvee that is not an entry point and not already
checked, expansion is gated on the tail flag: a non-tail approvee is
skipped entirely (neither traversed nor marked checked), while a tail
approvee that is not registered as an in-range milestone — it fails the
prefilter, its bundle does not validate, or its index is out of range — is
added to the traversal set and marked checked. -/
theorem searchApprovee_tail_gate (w : World) (si ti : Nat) (st : SearchState)
    (a : String) (t : Transaction)
    (hep : solidEntryPointsContain w a = false) (hchk : a ∉ st.txsChecked)
    (hl : getCachedTransaction w a = some t) :
    (t.isTail = false → searchApprovee w si ti st a = some (st, false)) ∧
    (t.isTail = true →
      (t.maybeMilestone = false ∨ t.bundleMilestone = some none ∨
        (∃ i, t.bundleMilestone = some (some i) ∧ ¬(si < i ∧ i < ti))) →
      searchApprovee w si ti st a =
        some ({ st with txsToTraverse := insertSet a st.txsToTraverse,
                        txsChecked := insertSet a st.txsChecked }, false)) := by
  constructor
  · intro hnt
    simp only [searchApprovee, hep, hchk, hl, hnt]
    simp
  · intro ht hcase
    simp only [searchApprovee, hep, hchk, hl, ht]
    rcases hcase with hmm | hbm | ⟨i, hbm, hrange⟩
    · simp [hmm]
    · simp [hbm]
    · simp [hbm, hrange]

/-- C6, witness for the amended theorem: in `wNonTail` the non-tail
approvee `N` is skipped by the search with its state unchanged. -/
theorem searchApprovee_tail_gate_witness :
    searchApprovee wNonTail 3 6 ⟨[], [], [], false, 0⟩ "N" =
      some (⟨[], [], [], false, 0⟩, false) := by
  exact (searchApprovee_tail_gate wNonTail 3 6 ⟨[], [], [], false, 0⟩ "N"
    ⟨"N", "E", "E", false, true, false, none⟩
    (by decide) (by decide) (by decide)).1 (by decide)

/-! ## Helper lemmas about `checkSolidity` and lookups -/

/-- A successful cache lookup returns the transaction with the requested
hash. -/
theorem getCached_hash {w : World} {h : String} {t : Transaction}
    (hf : getCachedTransaction w h = some t) : t.hash = h := by
  unfold getCachedTransaction at hf
  have := List.find?_some hf
  simpa using this

/-- A successful cache lookup returns a member of the cache. -/
theorem getCached_mem {w : World} {h : String} {t : Transaction}
    (hf : getCachedTransaction w h = some t) : t ∈ w.cache := by
  unfold getCachedTransaction at hf
  exact List.mem_of_find?_eq_some hf

/-- Cache lookups only depend on the `cache` field. -/
theorem getCached_congr {w w' : World} (hc : w'.cache = w.cache) (h : String) :
    getCachedTransaction w' h = getCachedTransaction w h := by
  unfold getCachedTransaction
  rw [hc]

/-- Lookup in `setSolid w x`: the looked-up transaction, with its solid
flag forced when its hash is `x`. -/
theorem getCached_setSolid (w : World) (x h : String) :
    getCachedTransaction (setSolid w x) h =
      (getCachedTransaction w h).map
        (fun t => if t.hash == x then { t with solid := true } else t) := by
  unfold getCachedTransaction setSolid
  rw [List.find?_map]
  have hp : ((fun t : Transaction => t.hash == h) ∘
      fun t => if (t.hash == x) = true then { t with solid := true } else t) =
      fun t : Transaction => t.hash == h := by
    funext t
    by_cases ht : (t.hash == x) = true <;> simp [Function.comp, ht]
  rw [hp]

/-- Decidable form of "this approvee is a solid entry point or cached
solid". -/
def approveeOk (w : World) (a : String) : Bool :=
  solidEntryPointsContain w a ||
    (match getCachedTransaction w a with
     | some t => t.solid
     | none => false)

/-- `approveeOk` decides the entry-point-or-cached-solid disjunction. -/
theorem approveeOk_iff (w : World) (a : String) :
    approveeOk w a = true ↔ (solidEntryPointsContain w a = true ∨ cachedSolid w a) := by
  unfold approveeOk cachedSolid
  cases hca : getCachedTransaction w a with
  | none =>
    simp only [Bool.or_eq_true]
    constructor
    · rintro (h | h)
      · exact Or.inl h
      · simp at h
    · rintro (h | ⟨t, ht, _⟩)
      · exact Or.inl h
      · exact Option.noConfusion ht
  | some t =>
    simp only [Bool.or_eq_true]
    constructor
    · rintro (h | h)
      · exact Or.inl h
      · exact Or.inr ⟨t, rfl, h⟩
    · rintro (h | ⟨t', ht', hs'⟩)
      · exact Or.inl h
      · cases ht'; exact Or.inr hs'

/-- `List.all` form of the approvee condition. -/
theorem allApproveesOk_iff (w : World) (t : Transaction) :
    (approveeHashes t).all (approveeOk w) = true ↔
      ∀ a ∈ approveeHashes t, solidEntryPointsContain w a = true ∨ cachedSolid w a := by
  rw [List.all_eq_true]
  constructor
  · intro hall a ha
    exact (approveeOk_iff w a).mp (hall a ha)
  · intro hall a ha
    exact (approveeOk_iff w a).mpr (hall a ha)

/-- The approvee loop of `checkSolidity` succeeds, leaving the world
unchanged, when every approvee is a solid entry point or cached solid. -/
theorem checkApproveesLoop_all_ok (w : World) (s : String) (add : Bool) (L : List String)
    (hok : ∀ a ∈ L, solidEntryPointsContain w a = true ∨ cachedSolid w a) :
    checkApproveesLoop w s add L = (true, w) := by
  induction L with
  | nil => rfl
  | cons a rest ih =>
    have ihr := ih (fun x hx => hok x (List.mem_cons_of_mem _ hx))
    rw [checkApproveesLoop]
    by_cases hep : solidEntryPointsContain w a = true
    · rw [if_pos hep]; exact ihr
    · rw [if_neg hep]
      rcases hok a (List.mem_cons_self a rest) with h | ⟨ta, hta, hsol⟩
      · exact absurd h hep
      · simp only [hta, hsol, if_true]
        exact ihr

/-- If the approvee loop of `checkSolidity` succeeds, the world is
unchanged and every approvee was a solid entry point or cached solid. -/
theorem checkApproveesLoop_sound (w : World) (s : String) (add : Bool) (L : List String) :
    ∀ r, checkApproveesLoop w s add L = (true, r) →
      r = w ∧ ∀ a ∈ L, solidEntryPointsContain w a = true ∨ cachedSolid w a := by
  induction L with
  | nil =>
    intro r hr
    rw [checkApproveesLoop] at hr
    cases hr
    exact ⟨rfl, by simp⟩
  | cons a rest ih =>
    intro r hr
    rw [checkApproveesLoop] at hr
    by_cases hep : solidEntryPointsContain w a = true
    · rw [if_pos hep] at hr
      obtain ⟨hw, hall⟩ := ih r hr
      refine ⟨hw, fun x hx => ?_⟩
      rcases List.mem_cons.mp hx with h | h
      · exact h ▸ Or.inl hep
      · exact hall x h
    · rw [if_neg hep] at hr
      cases hca : getCachedTransaction w a with
      | none => rw [hca] at hr; simp at hr
      | some ta =>
        rw [hca] at hr
        by_cases hsol : ta.solid = true
        · simp only [hsol, if_true] at hr
          obtain ⟨hw, hall⟩ := ih r hr
          refine ⟨hw, fun x hx => ?_⟩
          rcases List.mem_cons.mp hx with h | h
          · exact h ▸ Or.inr ⟨ta, hca, hsol⟩
          · exact hall x h
        · simp only [Bool.not_eq_true] at hsol
          simp [hsol] at hr

/-- The approvee loop never changes the transaction cache. -/
theorem checkApproveesLoop_cache (w : World) (s : String) (add : Bool) (L : List String) :
    (checkApproveesLoop w s add L).2.cache = w.cache := by
  induction L with
  | nil => rfl
  | cons a rest ih =>
    rw [checkApproveesLoop]
    by_cases hep : solidEntryPointsContain w a = true
    · rw [if_pos hep]; exact ih
    · rw [if_neg hep]
      cases hca : getCachedTransaction w a with
      | none =>
        cases add <;> simp [addApproverIndex]
      | some ta =>
        by_cases hsol : ta.solid = true
        · simp only [hsol, if_true]; exact ih
        · simp only [Bool.not_eq_true] at hsol
          cases add <;> simp [hsol, addApproverIndex]

/-! ## C3 — the contract of `checkSolidity` -/

/-- C3: if the transaction is already solid, `checkSolidity` returns
`(true, false)` with no side effects; otherwise, if every approvee —
trunk, then the branch only if distinct, entry points skipped — is cached
and solid, it sets the solid flag, emits `TransactionSolid` and returns
`(true, true)`; in every other case it returns `(false, false)` without
touching the cache and without emitting events. -/
theorem checkSolidity_contract (w : World) (t : Transaction) (add : Bool) :
    (t.solid = true → checkSolidity w t add = ⟨true, false, w, []⟩) ∧
    (t.solid = false →
      (∀ a ∈ approveeHashes t, solidEntryPointsContain w a = true ∨ cachedSolid w a) →
      checkSolidity w t add = ⟨true, true, setSolid w t.hash, [Event.transactionSolid t.hash]⟩) ∧
    (t.solid = false →
      ¬(∀ a ∈ approveeHashes t, solidEntryPointsContain w a = true ∨ cachedSolid w a) →
      (checkSolidity w t add).solid = false ∧ (checkSolidity w t add).newlySolid = false ∧
      (checkSolidity w t add).world.cache = w.cache ∧ (checkSolidity w t add).events = []) := by
  refine ⟨fun hs => ?_, fun hs hok => ?_, fun hs hnok => ?_⟩
  · simp [checkSolidity, hs]
  · rw [checkSolidity, if_neg (by simp [hs])]
    rw [checkApproveesLoop_all_ok w t.hash add _ hok]
  · rw [checkSolidity, if_neg (by simp [hs])]
    cases hres : checkApproveesLoop w t.hash add (approveeHashes t) with
    | mk b w1 =>
      cases b with
      | true => exact absurd (checkApproveesLoop_sound w t.hash add _ _ hres).2 hnok
      | false =>
        have hc : w1.cache = w.cache := by
          have := checkApproveesLoop_cache w t.hash add (approveeHashes t)
          rw [hres] at this
          exact this
        exact ⟨rfl, rfl, hc, rfl⟩

/-- C3, witness: on `wAbort`, `checkSolidity` of the already-solid case,
the all-approvees-solid case (transaction `A` whose approvee is the entry
point `E`) and the failure case (transaction `T` whose approvee `A` is not
yet solid) behave as stated. -/
theorem checkSolidity_contract_witness :
    checkSolidity wAbort ⟨"A", "E", "E", true, false, false, none⟩ false =
      ⟨true, true, setSolid wAbort "A", [Event.transactionSolid "A"]⟩ ∧
    (checkSolidity wAbort ⟨"T", "A", "A", true, false, false, none⟩ false).solid = false ∧
    checkSolidity wAbort ⟨"X", "A", "A", true, true, false, none⟩ false =
      ⟨true, false, wAbort, []⟩ := by
  refine ⟨?_, ?_, ?_⟩
  · exact (checkSolidity_contract wAbort ⟨"A", "E", "E", true, false, false, none⟩ false).2.1
      (by decide) ((allApproveesOk_iff _ _).mp (by decide))
  · exact ((checkSolidity_contract wAbort ⟨"T", "A", "A", true, false, false, none⟩ false).2.2
      (by decide)
      (fun hall => by
        have := (allApproveesOk_iff wAbort ⟨"T", "A", "A", true, false, false, none⟩).mpr hall
        exact absurd this (by decide))).1
  · exact (checkSolidity_contract wAbort ⟨"X", "A", "A", true, true, false, none⟩ false).1
      (by decide)

/-! ## C7 — the solid flag is set only under solid parents -/

/-- C7: a `checkSolidity` call marks a transaction solid only when, in the
pre-state, each of its approvees (trunk, and branch if distinct) is a solid
entry point or cached and already solid: any transaction that is solid in
the post-state was either already solid in the pre-state, or is the checked
transaction itself and all its approvees satisfied the condition at that
instant — solidity propagates only from approvee to approver. -/
theorem checkSolidity_solid_only_if (w : World) (t : Transaction) (add : Bool)
    (h : String) (ht : Transaction)
    (hl : getCachedTransaction (checkSolidity w t add).world h = some ht)
    (hsol : ht.solid = true) :
    (∃ h0, getCachedTransaction w h = some h0 ∧ h0.solid = true) ∨
    (h = t.hash ∧ ∀ a ∈ approveeHashes t,
      solidEntryPointsContain w a = true ∨ cachedSolid w a) := by
  by_cases hts : t.solid = true
  · rw [(checkSolidity_contract w t add).1 hts] at hl
    exact Or.inl ⟨ht, hl, hsol⟩
  · simp only [Bool.not_eq_true] at hts
    rw [checkSolidity, if_neg (by simp [hts])] at hl
    cases hres : checkApproveesLoop w t.hash add (approveeHashes t) with
    | mk b w1 =>
      rw [hres] at hl
      cases b with
      | true =>
        obtain ⟨hw1, hall⟩ := checkApproveesLoop_sound w t.hash add _ _ hres
        simp only at hl
        rw [hw1, getCached_setSolid] at hl
        cases hca : getCachedTransaction w h with
        | none => simp [hca] at hl
        | some h0 =>
          rw [hca] at hl
          simp only [Option.map_some'] at hl
          have hh0 : h0.hash = h := getCached_hash hca
          by_cases hx : (h0.hash == t.hash) = true
          · have hht : h0.hash = t.hash := by simpa using hx
            exact Or.inr ⟨by rw [← hh0, hht], hall⟩
          · rw [if_neg hx] at hl
            have heq : h0 = ht := Option.some.inj hl
            exact Or.inl ⟨h0, rfl, by rw [heq]; exact hsol⟩
      | false =>
        have hc : w1.cache = w.cache := by
          have := checkApproveesLoop_cache w t.hash add (approveeHashes t)
          rw [hres] at this
          exact this
        simp only at hl
        rw [getCached_congr hc] at hl
        exact Or.inl ⟨ht, hl, hsol⟩

/-- C7, witness: marking `A` solid in `wAbort` is covered by the second
disjunct — `A`'s only approvee is the entry point `E`. -/
theorem checkSolidity_solid_only_if_witness :
    (∃ h0, getCachedTransaction wAbort "A" = some h0 ∧ h0.solid = true) ∨
    ("A" = (⟨"A", "E", "E", true, false, false, none⟩ : Transaction).hash ∧
      ∀ a ∈ approveeHashes (⟨"A", "E", "E", true, false, false, none⟩ : Transaction),
        solidEntryPointsContain wAbort a = true ∨ cachedSolid wAbort a) := by
  exact checkSolidity_solid_only_if wAbort ⟨"A", "E", "E", true, false, false, none⟩ false
    "A" ⟨"A", "E", "E", true, true, false, none⟩ (by decide) (by decide)

/-! ## C2 — what an aborted walk can and cannot have done -/

/-- Every event a `checkSolidity` call emits is a `TransactionSolid`. -/
theorem checkSolidity_events_onlySolid (w : World) (t : Transaction) (add : Bool) :
    ∀ e ∈ (checkSolidity w t add).events, ∃ h, e = Event.transactionSolid h := by
  unfold checkSolidity
  by_cases hts : t.solid = true
  · simp [hts]
  · rw [if_neg hts]
    cases hres : checkApproveesLoop w t.hash add (approveeHashes t) with
    | mk b w1 =>
      cases b with
      | true =>
        intro e he
        simp only [List.mem_singleton] at he
        exact ⟨t.hash, he⟩
      | false => intro e he; simp at he

/-- Events accumulated by a phase-2 sweep on top of a trace of
`TransactionSolid` events are all `TransactionSolid`. -/
theorem phase2Pass_events_onlySolid (approvers : List (String × List String))
    (abortFn : Nat → Bool) (L : List String) :
    ∀ (st : P2State) (ns : Bool),
      (∀ e ∈ st.events, ∃ h, e = Event.transactionSolid h) →
      (∀ st', phase2Pass approvers abortFn L st ns = .aborted st' →
        ∀ e ∈ st'.events, ∃ h, e = Event.transactionSolid h) ∧
      (∀ st' b, phase2Pass approvers abortFn L st ns = .done st' b →
        ∀ e ∈ st'.events, ∃ h, e = Event.transactionSolid h) := by
  induction L with
  | nil =>
    intro st ns hst
    constructor
    · intro st' hab
      rw [phase2Pass] at hab
      cases hab
    · intro st' b hd
      rw [phase2Pass] at hd
      cases hd
      exact hst
  | cons e rest ih =>
    intro st ns hst
    have happ : ∀ (t : Transaction),
        ∀ x ∈ st.events ++ (checkSolidity st.world t false).events,
        ∃ h, x = Event.transactionSolid h := by
      intro t x hx
      rcases List.mem_append.mp hx with h | h
      · exact hst x h
      · exact checkSolidity_events_onlySolid st.world t false x h
    constructor
    · intro st' hab
      rw [phase2Pass] at hab
      split at hab
      · cases hab
        exact hst
      · split at hab
        · cases hab
        · rename_i t hca
          split at hab
          · exact (ih _ true (happ t)).1 st' hab
          · exact (ih _ ns (happ t)).1 st' hab
    · intro st' b hd
      rw [phase2Pass] at hd
      split at hd
      · cases hd
      · split at hd
        · cases hd
        · rename_i t hca
          split at hd
          · exact (ih _ true (happ t)).2 st' b hd
          · exact (ih _ ns (happ t)).2 st' b hd

/-- Events accumulated by the phase-2 outer loop on top of a trace of
`TransactionSolid` events are all `TransactionSolid`. -/
theorem phase2Loop_events_onlySolid (approvers : List (String × List String))
    (abortFn : Nat → Bool) (fuel : Nat) :
    ∀ (st : P2State),
      (∀ e ∈ st.events, ∃ h, e = Event.transactionSolid h) →
      (∀ st', phase2Loop approvers abortFn fuel st = .aborted st' →
        ∀ e ∈ st'.events, ∃ h, e = Event.transactionSolid h) ∧
      (∀ st', phase2Loop approvers abortFn fuel st = .done st' →
        ∀ e ∈ st'.events, ∃ h, e = Event.transactionSolid h) := by
  induction fuel with
  | zero =>
    intro st hst
    constructor <;> intro st' hrun <;> rw [phase2Loop] at hrun <;> split at hrun
    · cases hrun
    · rename_i st2 hpass
      cases hrun
      exact (phase2Pass_events_onlySolid approvers abortFn st.entryTxs st false hst).1 st' hpass
    · rename_i st2 ns hpass
      split at hrun
      · cases hrun
      · cases hrun
    · cases hrun
    · cases hrun
    · rename_i st2 ns hpass
      split at hrun
      · cases hrun
      · cases hrun
        exact (phase2Pass_events_onlySolid approvers abortFn st.entryTxs st false hst).2
          st' ns hpass
  | succ fuel ih =>
    intro st hst
    constructor <;> intro st' hrun <;> rw [phase2Loop] at hrun <;> split at hrun
    · cases hrun
    · rename_i st2 hpass
      cases hrun
      exact (phase2Pass_events_onlySolid approvers abortFn st.entryTxs st false hst).1 st' hpass
    · rename_i st2 ns hpass
      have h2 : ∀ e ∈ st2.events, ∃ h, e = Event.transactionSolid h :=
        (phase2Pass_events_onlySolid approvers abortFn st.entryTxs st false hst).2 st2 ns hpass
      split at hrun
      · exact (ih st2 h2).1 st' hrun
      · cases hrun
    · cases hrun
    · cases hrun
    · rename_i st2 ns hpass
      have h2 : ∀ e ∈ st2.events, ∃ h, e = Event.transactionSolid h :=
        (phase2Pass_events_onlySolid approvers abortFn st.entryTxs st false hst).2 st2 ns hpass
      split at hrun
      · exact (ih st2 h2).2 st' hrun
      · cases hrun
        exact h2

/-- Every event a completed `solidQueueCheck` reports is a
`TransactionSolid` — the walk itself never confirms a milestone. -/
theorem solidQueueCheck_events_onlySolid (w : World) (msIdx : Nat) (th : String)
    (abortFn : Nat → Bool) (f1 f2 : Nat) (s a : Bool) (w' : World) (ev : List Event)
    (rq sb : List String)
    (hrun : solidQueueCheck w msIdx th abortFn f1 f2 = .done s a w' ev rq sb) :
    ∀ e ∈ ev, ∃ h, e = Event.transactionSolid h := by
  unfold solidQueueCheck at hrun
  split at hrun
  · cases hrun
  · cases hrun
  · cases hrun
    intro e he
    simp at he
  · split at hrun
    · cases hrun
      intro e he
      simp at he
    · split at hrun
      · cases hrun
      · split at hrun
        · cases hrun
        · cases hrun
        · rename_i st2 hploop
          cases hrun
          exact (phase2Loop_events_onlySolid _ abortFn f2 _
            (by intro e he; simp at he)).1 st2 hploop
        · rename_i st2 hploop
          cases hrun
          exact (phase2Loop_events_onlySolid _ abortFn f2 _
            (by intro e he; simp at he)).2 st2 hploop

/-- A walk that reports `aborted = true` reports `solid = false`. -/
theorem solidQueueCheck_aborted_not_solid (w : World) (msIdx : Nat) (th : String)
    (abortFn : Nat → Bool) (f1 f2 : Nat) (s : Bool) (w' : World) (ev : List Event)
    (rq sb : List String)
    (hrun : solidQueueCheck w msIdx th abortFn f1 f2 = .done s true w' ev rq sb) :
    s = false := by
  unfold solidQueueCheck at hrun
  split at hrun
  · cases hrun
  · cases hrun
  · cases hrun
    rfl
  · split at hrun
    · cases hrun
    · split at hrun
      · cases hrun
      · split at hrun
        · cases hrun
        · cases hrun
        · cases hrun
          rfl
        · cases hrun

/-- The shared state of `wAbort` after `A` has been marked solid. -/
def wAbortAfter : World :=
  ⟨[⟨"A", "E", "E", true, true, false, none⟩, ⟨"T", "A", "A", true, false, false, none⟩],
   ["E"], [], false⟩

/-- C2, counterexample: the claim says that on any `aborted = true` return
no transaction's solid flag was set during the attempt. On `wAbort`, with
an abort signal that fires from the fourth poll on, the walk solidifies
`A` (flag set in the final world, `TransactionSolid "A"` emitted) during
phase 2 and only then observes the abort — returning aborted with a
mutation already performed: the abort poll sits at the top of each step
(solidifier.go lines 201-206), after earlier steps completed. -/
theorem solidQueueCheck_aborted_mutation_cex :
    solidQueueCheck wAbort 1 "T" abortFromPoll3 5 5 =
      .done false true wAbortAfter [Event.transactionSolid "A"] [] [] ∧
    getCachedTransaction wAbort "A" = some ⟨"A", "E", "E", true, false, false, none⟩ ∧
    getCachedTransaction wAbortAfter "A" = some ⟨"A", "E", "E", true, true, false, none⟩ := by
  have h1 : phase1Loop wAbort abortFromPoll3 5 (initialP1State "T") =
      .finished ⟨[("A", false)], [], [("A", ["T"])], ["A"], [], ["A", "T"], 2⟩ := by rfl
  have h2 : phase2Loop [("A", ["T"])] abortFromPoll3 5 ⟨wAbort, ["A"], [], [], 2⟩ =
      .aborted ⟨wAbortAfter, ["T"], [Event.transactionSolid "A"], [], 4⟩ := by rfl
  refine ⟨?_, rfl, rfl⟩
  unfold solidQueueCheck
  simp only [h1, h2]

/-- C2, amended: on an aborted walk no milestone is confirmed during the
attempt — an abort observed during phase 1 (collection) returns before any
solid flag is set or event is emitted, with the shared state unchanged; and
whenever the inner walk of `solidifyMilestone` returns `aborted = true`,
neither `confirmMilestone` nor `SolidMilestoneChanged` appears in the
attempt's events. (Solid flags set by phase-2 propagation steps that
completed before the abort was observed may persist.) -/
theorem solidQueueCheck_abort_effects :
    (∀ (w : World) (msIdx : Nat) (th : String) (abortFn : Nat → Bool) (f1 f2 : Nat)
        (stx : P1State),
      phase1Loop w abortFn f1 (initialP1State th) = .aborted stx →
      solidQueueCheck w msIdx th abortFn f1 f2 = .done false true w [] [] []) ∧
    (∀ (nd : Node) (trigger : Nat) (abortFn : Nat → Bool) (f1 f2 sd : Nat)
        (res : SolidifyResult) (s : Bool) (w' : World) (ev : List Event)
        (rq sb : List String) (i : Nat),
      solidifyMilestone nd trigger abortFn f1 f2 sd = res →
      res.walk = some (.done s true w' ev rq sb) →
      Event.confirmMilestone i ∉ res.events ∧
      Event.solidMilestoneChanged i ∉ res.events) := by
  constructor
  · intro w msIdx th abortFn f1 f2 stx h
    unfold solidQueueCheck
    rw [h]
  · intro nd trigger abortFn f1 f2 sd res s w' ev rq sb i hres hwalk
    unfold solidifyMilestone at hres
    split at hres
    · cases hres; cases hwalk
    · split at hres
      · cases hres; cases hwalk
      · split at hres
        · cases hres; cases hwalk
        · rename_i m hm
          split at hres
          · cases hres; simp at hwalk
          · cases hres; simp at hwalk
          · rename_i solid ab w2 ev2 rq2 sb2 hw
            split at hres
            · rename_i hsolid
              cases hres
              simp only [Option.some_inj, WalkOut.done.injEq] at hwalk
              obtain ⟨hs, hab, hw2, hev, hrq, hsb⟩ := hwalk
              subst hev
              have honly := solidQueueCheck_events_onlySolid nd.world m.index m.tailHash
                abortFn f1 f2 solid ab w2 ev2 rq2 sb2 hw
              constructor
              · intro hmem
                obtain ⟨h, hh⟩ := honly _ hmem
                cases hh
              · intro hmem
                obtain ⟨h, hh⟩ := honly _ hmem
                cases hh
            · rename_i hsolid
              repeat' split at hres
              all_goals (
                cases hres
                simp only [Option.some_inj, WalkOut.done.injEq] at hwalk
                obtain ⟨hs, hab, -, -, -, -⟩ := hwalk
                subst hab
                exact absurd (solidQueueCheck_aborted_not_solid nd.world m.index m.tailHash
                  abortFn f1 f2 solid w2 ev2 rq2 sb2 hw) hsolid)

/-- C2, witness for the amended theorem: a walk on `wAbort` whose abort
signal has already fired at the first poll returns aborted with the world
untouched and no events. -/
theorem solidQueueCheck_abort_effects_witness :
    solidQueueCheck wAbort 1 "T" (fun _ => true) 5 5 = .done false true wAbort [] [] [] := by
  exact solidQueueCheck_abort_effects.1 wAbort 1 "T" (fun _ => true) 5 5
    ⟨[], ["T"], [], [], [], [], 1⟩ (by rfl)

/-! ## C9 — re-walking an already-solid milestone -/

/-- `find?` over the map rewrite of `registerApprover` is unchanged for
keys other than the registered approvee. -/
theorem find?_map_register_ne (aps : List (String × List String)) (a self k : String)
    (hk : k ≠ a) :
    (aps.map (fun p => if p.1 == a then (p.1, insertSet self p.2) else p)).find?
        (fun p => p.1 == k) = aps.find? (fun p => p.1 == k) := by
  induction aps with
  | nil => rfl
  | cons q rest ih =>
    by_cases hqa : (q.1 == a) = true
    · have hq : q.1 = a := by simpa using hqa
      have hqk : (q.1 == k) = false := by
        simp only [beq_eq_false_iff_ne, ne_eq, hq]
        exact fun h => hk h.symm
      simp only [List.map_cons, List.find?, if_pos hqa]
      simp only [hqk]
      exact ih
    · simp only [List.map_cons, List.find?, if_neg hqa]
      by_cases hqk : (q.1 == k) = true
      · simp only [hqk]
      · simp only [hqk]
        exact ih

/-- `registerApprover` leaves the approver set of every other key
unchanged. -/
theorem registerApprover_find?_ne (aps : List (String × List String)) (a self k : String)
    (hk : k ≠ a) :
    (registerApprover aps a self).find? (fun p => p.1 == k) =
      aps.find? (fun p => p.1 == k) := by
  unfold registerApprover
  cases hf : aps.find? (fun p => p.1 == a) with
  | none =>
    have hak : (((a, [self]) : String × List String).1 == k) = false := by
      simp only [beq_eq_false_iff_ne, ne_eq]
      exact fun h => hk h.symm
    simp only [List.find?, hak]
  | some p => exact find?_map_register_ne aps a self k hk

/-- Processing an approvee that is a solid entry point or cached solid
only touches `approvers` and `txsChecked`, keeps the `isEntryTx` flag,
keeps all recorded solidity values true, and does not create approver
entries for other keys. -/
theorem processApprovee_ok (w : World) (selfHash a : String) (st : P1State) (ie : Bool)
    (ha : solidEntryPointsContain w a = true ∨ cachedSolid w a)
    (hchk : ∀ p ∈ st.txsChecked, p.2 = true) :
    ∃ aps' chk',
      processApprovee w selfHash (st, ie) a =
        ({ st with approvers := aps', txsChecked := chk' }, ie) ∧
      (∀ p ∈ chk', p.2 = true) ∧
      (∀ k, k ≠ a → aps'.find? (fun p => p.1 == k) =
        st.approvers.find? (fun p => p.1 == k)) := by
  by_cases hep : solidEntryPointsContain w a = true
  · exact ⟨st.approvers, st.txsChecked,
      by unfold processApprovee; rw [if_pos hep], hchk, fun k _ => rfl⟩
  · rcases ha with h | ⟨ta, hta, hsolid⟩
    · exact absurd h hep
    cases hl : lookupChecked st.txsChecked a with
    | some b =>
      have hb : b = true := by
        unfold lookupChecked at hl
        cases hf : st.txsChecked.find? (fun p => p.1 == a) with
        | none => rw [hf] at hl; cases hl
        | some pr =>
          rw [hf] at hl
          cases hl
          exact hchk pr (List.mem_of_find?_eq_some hf)
      refine ⟨registerApprover st.approvers a selfHash, st.txsChecked, ?_, hchk,
        fun k hk => registerApprover_find?_ne st.approvers a selfHash k hk⟩
      unfold processApprovee
      rw [if_neg hep, hl]
      simp only [hb, Bool.and_true]
    | none =>
      refine ⟨registerApprover st.approvers a selfHash, (a, ta.solid) :: st.txsChecked, ?_, ?_,
        fun k hk => registerApprover_find?_ne st.approvers a selfHash k hk⟩
      · unfold processApprovee
        rw [if_neg hep]
        simp only [hl, hta, hsolid, if_true]
      · intro p hp
        rcases List.mem_cons.mp hp with h | h
        · rw [h]; exact hsolid
        · exact hchk p h

/-- Folding `processApprovee` over approvees that are all solid entry
points or cached solid only touches `approvers` and `txsChecked`, keeps
`isEntryTx` true, keeps all recorded solidity values true, and creates no
approver entries outside the folded list. -/
theorem processApprovee_fold_ok (w : World) (selfHash : String) (L : List String)
    (hL : ∀ a ∈ L, solidEntryPointsContain w a = true ∨ cachedSolid w a) :
    ∀ (st : P1State), (∀ p ∈ st.txsChecked, p.2 = true) →
    ∃ aps' chk',
      L.foldl (processApprovee w selfHash) (st, true) =
        ({ st with approvers := aps', txsChecked := chk' }, true) ∧
      (∀ p ∈ chk', p.2 = true) ∧
      (∀ k, k ∉ L → aps'.find? (fun p => p.1 == k) =
        st.approvers.find? (fun p => p.1 == k)) := by
  induction L with
  | nil =>
    intro st hchk
    exact ⟨st.approvers, st.txsChecked, rfl, hchk, fun k _ => rfl⟩
  | cons a rest ih =>
    intro st hchk
    obtain ⟨aps1, chk1, hstep, hchk1, hfind1⟩ :=
      processApprovee_ok w selfHash a st true (hL a (List.mem_cons_self a rest)) hchk
    obtain ⟨aps2, chk2, hfold, hchk2, hfind2⟩ :=
      ih (fun x hx => hL x (List.mem_cons_of_mem _ hx))
        { st with approvers := aps1, txsChecked := chk1 } hchk1
    refine ⟨aps2, chk2, ?_, hchk2, ?_⟩
    · rw [List.foldl_cons, hstep, hfold]
    · intro k hk
      have hka : k ≠ a := fun h => hk (h ▸ List.mem_cons_self a rest)
      have hkr : k ∉ rest := fun h => hk (List.mem_cons_of_mem _ h)
      rw [hfind2 k hkr]
      exact hfind1 k hka

/-- C9: re-invoking the walk on a milestone whose tail is already solid
(and whose approvees are entry points or cached solid, as solidity
guarantees; the tail does not approve itself) returns `(true, false)` and
performs no mutations: the shared state is returned unchanged, no
`TransactionSolid` event is emitted, no gossip request is issued, and
nothing is submitted to the future-cone worker pool. -/
theorem solidQueueCheck_idempotent (w : World) (msIdx : Nat) (th : String) (t : Transaction)
    (f1 f2 : Nat)
    (hlook : getCachedTransaction w th = some t) (hsolid : t.solid = true)
    (hpar : ∀ a ∈ approveeHashes t, solidEntryPointsContain w a = true ∨ cachedSolid w a)
    (hns : th ∉ approveeHashes t) :
    solidQueueCheck w msIdx th (fun _ => false) (f1 + 1) (f2 + 1) =
      .done true false w [] [] [] := by
  have hhash : t.hash = th := getCached_hash hlook
  obtain ⟨aps', chk', hfold, hchk', hfind⟩ :=
    processApprovee_fold_ok w t.hash (approveeHashes t) hpar
      ⟨[], [], [], [], [], [th], 1⟩ (by intro p hp; simp at hp)
  have hpt : processTx w ⟨[], [], [], [], [], [], 1⟩ th =
      some ⟨chk', [], aps', [th], [], [th], 1⟩ := by
    unfold processTx
    rw [hlook]
    simp only [insertSet, List.not_mem_nil, if_false]
    rw [hfold]
    simp only [hhash]
    rfl
  have h1 : phase1Loop w (fun _ => false) (f1 + 1) (initialP1State th) =
      .finished ⟨chk', [], aps', [th], [], [th], 1⟩ := by
    rw [phase1Loop]
    simp only [initialP1State]
    simp only [Bool.false_eq_true, if_false]
    rw [show ((0 : Nat) + 1) = 1 from rfl] at *
    rw [hpt]
    show phase1Loop w (fun _ => false) f1 ⟨chk', [], aps', [th], [], [th], 1⟩ =
      .finished ⟨chk', [], aps', [th], [], [th], 1⟩
    rw [phase1Loop]
  have happrov : lookupApprovers aps' th = [] := by
    unfold lookupApprovers
    rw [hfind th hns]
    rfl
  have hcheck : checkSolidity w t false = ⟨true, false, w, []⟩ :=
    (checkSolidity_contract w t false).1 hsolid
  have hpass1 : phase2Pass aps' (fun _ => false) [th] ⟨w, [th], [], [], 1⟩ false =
      .done ⟨w, [], [], [], 2⟩ true := by
    rw [phase2Pass]
    simp only [Bool.false_eq_true, if_false]
    rw [show getCachedTransaction (⟨w, [th], [], [], 1⟩ : P2State).world th =
      some t from hlook]
    simp only [hcheck, happrov, List.foldl_nil, if_true]
    rw [phase2Pass]
    simp [removeSet]
  have h2 : phase2Loop aps' (fun _ => false) (f2 + 1) ⟨w, [th], [], [], 1⟩ =
      .done ⟨w, [], [], [], 2⟩ := by
    rw [phase2Loop]
    simp only [hpass1]
    simp only [if_true]
    rw [phase2Loop]
    rfl
  unfold solidQueueCheck
  simp only [h1, h2]
  rfl

/-- A world whose only cached transaction is the solid milestone tail `T`
with both parents at the entry point `E`. -/
def wSolidTail : World := ⟨[⟨"T", "E", "E", true, true, false, none⟩], ["E"], [], false⟩

/-- C9, witness: the walk on the already-solid tail of `wSolidTail` returns
`(true, false)` with no mutations. -/
theorem solidQueueCheck_idempotent_witness :
    solidQueueCheck wSolidTail 1 "T" (fun _ => false) 1 1 =
      .done true false wSolidTail [] [] [] := by
  exact solidQueueCheck_idempotent wSolidTail 1 "T" ⟨"T", "E", "E", true, true, false, none⟩
    0 0 (by rfl) (by rfl)
    (by
      intro a ha
      simp only [approveeHashes] at ha
      simp at ha
      subst ha
      exact Or.inl (by rfl))
    (by decide)

/-! ## C8 — the requested set is exactly the absent reachable ancestors -/

/-- Reachability along approvee edges from `root`, stopping at solid entry
points: the ancestor relation phase 1 of the walk traverses. -/
inductive Reach (w : World) (root : String) : String → Prop where
  | refl : Reach w root root
  | step {h a : String} {t : Transaction} : Reach w root h →
      getCachedTransaction w h = some t → a ∈ approveeHashes t →
      solidEntryPointsContain w a = false → Reach w root a

theorem mem_insertSet_self (h : String) (l : List String) : h ∈ insertSet h l := by
  unfold insertSet
  split
  · assumption
  · exact List.mem_cons_self h l

theorem mem_insertSet_of_mem {x : String} {l : List String} (h : String) (hx : x ∈ l) :
    x ∈ insertSet h l := by
  unfold insertSet
  split
  · exact hx
  · exact List.mem_cons_of_mem h hx

theorem mem_of_mem_insertSet {x h : String} {l : List String} (hx : x ∈ insertSet h l) :
    x = h ∨ x ∈ l := by
  unfold insertSet at hx
  split at hx
  · exact Or.inr hx
  · exact (List.mem_cons.mp hx).imp id id

theorem lookupChecked_cons (a : String) (b : Bool) (l : List (String × Bool)) (x : String) :
    lookupChecked ((a, b) :: l) x = if a = x then some b else lookupChecked l x := by
  unfold lookupChecked
  by_cases hax : a = x
  · rw [List.find?_cons_of_pos _ (by simpa using hax), if_pos hax]
    rfl
  · rw [List.find?_cons_of_neg _ (by simpa using hax), if_neg hax]

/-- Conjunct 1 of the phase-1 invariant: every hash in `txsToRequest` is a
reachable, absent, non-entry-point ancestor. -/
def ReqSub (w : World) (root : String) (st : P1State) : Prop :=
  ∀ x ∈ st.txsToRequest, Reach w root x ∧ getCachedTransaction w x = none ∧
    solidEntryPointsContain w x = false

/-- Conjunct 2: every `txsChecked` entry classifies its hash — `true`
entries are cached solid, `false` entries are requested when absent and
traversed (drained or pending) when cached non-solid. -/
def CheckedClass (w : World) (root : String) (st : P1State) : Prop :=
  ∀ x b, lookupChecked st.txsChecked x = some b →
    Reach w root x ∧ solidEntryPointsContain w x = false ∧
    (b = true → cachedSolid w x) ∧
    (b = false →
      (getCachedTransaction w x = none → x ∈ st.txsToRequest) ∧
      (∀ tx, getCachedTransaction w x = some tx →
        tx.solid = false ∧ (x ∈ st.processed ∨ x ∈ st.txsToTraverse)))

/-- Conjunct 3: the worklist holds only reachable hashes. -/
def TravReach (w : World) (root : String) (st : P1State) : Prop :=
  ∀ x ∈ st.txsToTraverse, Reach w root x

/-- Conjunct 4: every drained hash is cached and all its non-entry-point
approvees have been recorded in `txsChecked`. -/
def ProcessedOk (w : World) (st : P1State) : Prop :=
  ∀ h ∈ st.processed, ∃ t, getCachedTransaction w h = some t ∧
    ∀ a ∈ approveeHashes t, solidEntryPointsContain w a = false →
      ∃ b, lookupChecked st.txsChecked a = some b

/-- The phase-1 loop invariant of `solidQueueCheck`. -/
structure P1Inv (w : World) (root : String) (st : P1State) : Prop where
  req : ReqSub w root st
  chk : CheckedClass w root st
  trav : TravReach w root st
  root_tracked : root ∈ st.processed ∨ root ∈ st.txsToTraverse
  proc : ProcessedOk w st

/-- One `processApprovee` step preserves the phase-1 invariant conjuncts
(apart from `ProcessedOk`, re-established per drained transaction), leaves
`processed` and `entryTxs` unchanged, grows `txsChecked`, `txsToRequest`
and `txsToTraverse` monotonically, and records the approvee in
`txsChecked` whenever it is not a solid entry point. -/
theorem processApprovee_inv (w : World) (root h : String) (t : Transaction)
    (hlook : getCachedTransaction w h = some t) (hreach : Reach w root h)
    (a : String) (ha : a ∈ approveeHashes t) (st : P1State) (ie : Bool)
    (hreq : ReqSub w root st) (hchk : CheckedClass w root st)
    (htrav : TravReach w root st) :
    ReqSub w root (processApprovee w t.hash (st, ie) a).1 ∧
    CheckedClass w root (processApprovee w t.hash (st, ie) a).1 ∧
    TravReach w root (processApprovee w t.hash (st, ie) a).1 ∧
    (processApprovee w t.hash (st, ie) a).1.processed = st.processed ∧
    (processApprovee w t.hash (st, ie) a).1.entryTxs = st.entryTxs ∧
    (∀ x b, lookupChecked st.txsChecked x = some b →
      lookupChecked (processApprovee w t.hash (st, ie) a).1.txsChecked x = some b) ∧
    (∀ x ∈ st.txsToRequest, x ∈ (processApprovee w t.hash (st, ie) a).1.txsToRequest) ∧
    (∀ x ∈ st.txsToTraverse, x ∈ (processApprovee w t.hash (st, ie) a).1.txsToTraverse) ∧
    (solidEntryPointsContain w a = false →
      ∃ b, lookupChecked (processApprovee w t.hash (st, ie) a).1.txsChecked a = some b) := by
  by_cases hep : solidEntryPointsContain w a = true
  · have heq : processApprovee w t.hash (st, ie) a = (st, ie) := by
      unfold processApprovee
      rw [if_pos hep]
    rw [heq]
    exact ⟨hreq, hchk, htrav, rfl, rfl, fun x b hb => hb, fun x hx => hx, fun x hx => hx,
      fun hcon => absurd hep (by simp [hcon])⟩
  · have hepf : solidEntryPointsContain w a = false := by simpa using hep
    have hra : Reach w root a := Reach.step hreach hlook ha hepf
    cases hl : lookupChecked st.txsChecked a with
    | some b0 =>
      have heq : processApprovee w t.hash (st, ie) a =
          ({ st with approvers := registerApprover st.approvers a t.hash }, ie && b0) := by
        unfold processApprovee
        rw [if_neg hep, hl]
      rw [heq]
      exact ⟨hreq, hchk, htrav, rfl, rfl, fun x b hb => hb, fun x hx => hx, fun x hx => hx,
        fun _ => ⟨b0, hl⟩⟩
    | none =>
      cases hca : getCachedTransaction w a with
      | none =>
        have heq : processApprovee w t.hash (st, ie) a =
            ({ st with approvers := registerApprover st.approvers a t.hash,
                       txsToRequest := insertSet a st.txsToRequest,
                       txsChecked := (a, false) :: st.txsChecked }, false) := by
          unfold processApprovee
          rw [if_neg hep, hl, hca]
        rw [heq]
        refine ⟨?_, ?_, htrav, rfl, rfl, ?_, ?_, fun x hx => hx, ?_⟩
        · intro x hx
          rcases mem_of_mem_insertSet hx with hxa | hx'
          · subst hxa
            exact ⟨hra, hca, hepf⟩
          · exact hreq x hx'
        · intro x b hb
          rw [lookupChecked_cons] at hb
          by_cases hax : a = x
          · subst hax
            rw [if_pos rfl] at hb
            cases hb
            refine ⟨hra, hepf, ?_, ?_⟩
            · intro hcon
              cases hcon
            · intro _
              constructor
              · intro _
                exact mem_insertSet_self a st.txsToRequest
              · intro tx htx
                rw [hca] at htx
                cases htx
          · rw [if_neg hax] at hb
            obtain ⟨h1, h2, h3, h4⟩ := hchk x b hb
            refine ⟨h1, h2, h3, ?_⟩
            intro hb0
            obtain ⟨h5, h6⟩ := h4 hb0
            exact ⟨fun habs => mem_insertSet_of_mem a (h5 habs), h6⟩
        · intro x b hb
          rw [lookupChecked_cons]
          by_cases hax : a = x
          · subst hax
            unfold lookupChecked at hl hb
            rw [hl] at hb
            cases hb
          · rw [if_neg hax]
            exact hb
        · intro x hx
          exact mem_insertSet_of_mem a hx
        · intro _
          refine ⟨false, ?_⟩
          rw [lookupChecked_cons, if_pos rfl]
      | some ta =>
        by_cases hsol : ta.solid = true
        · have heq : processApprovee w t.hash (st, ie) a =
              ({ st with approvers := registerApprover st.approvers a t.hash,
                         txsChecked := (a, true) :: st.txsChecked }, ie) := by
            unfold processApprovee
            rw [if_neg hep, hl, hca]
            simp only [hsol, if_true]
          rw [heq]
          refine ⟨hreq, ?_, htrav, rfl, rfl, ?_, fun x hx => hx, fun x hx => hx, ?_⟩
          · intro x b hb
            rw [lookupChecked_cons] at hb
            by_cases hax : a = x
            · subst hax
              rw [if_pos rfl] at hb
              cases hb
              refine ⟨hra, hepf, ?_, ?_⟩
              · exact fun _ => ⟨ta, hca, hsol⟩
              · intro hcon
                cases hcon
            · rw [if_neg hax] at hb
              obtain ⟨h1, h2, h3, h4⟩ := hchk x b hb
              exact ⟨h1, h2, h3, h4⟩
          · intro x b hb
            rw [lookupChecked_cons]
            by_cases hax : a = x
            · subst hax
              unfold lookupChecked at hl hb
              rw [hl] at hb
              cases hb
            · rw [if_neg hax]
              exact hb
          · intro _
            refine ⟨true, ?_⟩
            rw [lookupChecked_cons, if_pos rfl]
        · have hsf : ta.solid = false := by simpa using hsol
          have heq : processApprovee w t.hash (st, ie) a =
              ({ st with approvers := registerApprover st.approvers a t.hash,
                         txsChecked := (a, false) :: st.txsChecked,
                         txsToTraverse := insertSet a st.txsToTraverse }, false) := by
            unfold processApprovee
            rw [if_neg hep, hl, hca]
            simp only [hsf]
            rfl
          rw [heq]
          refine ⟨hreq, ?_, ?_, rfl, rfl, ?_, fun x hx => hx, ?_, ?_⟩
          · intro x b hb
            rw [lookupChecked_cons] at hb
            by_cases hax : a = x
            · subst hax
              rw [if_pos rfl] at hb
              cases hb
              refine ⟨hra, hepf, ?_, ?_⟩
              · intro hcon
                cases hcon
              · intro _
                constructor
                · intro habs
                  rw [hca] at habs
                  cases habs
                · intro tx htx
                  rw [hca] at htx
                  cases htx
                  exact ⟨hsf, Or.inr (mem_insertSet_self a st.txsToTraverse)⟩
            · rw [if_neg hax] at hb
              obtain ⟨h1, h2, h3, h4⟩ := hchk x b hb
              refine ⟨h1, h2, h3, ?_⟩
              intro hb0
              obtain ⟨h5, h6⟩ := h4 hb0
              refine ⟨h5, ?_⟩
              intro tx htx
              obtain ⟨h7, h8⟩ := h6 tx htx
              exact ⟨h7, h8.imp id (mem_insertSet_of_mem a)⟩
          · intro x hx
            rcases mem_of_mem_insertSet hx with hxa | hx'
            · subst hxa
              exact hra
            · exact htrav x hx'
          · intro x b hb
            rw [lookupChecked_cons]
            by_cases hax : a = x
            · subst hax
              unfold lookupChecked at hl hb
              rw [hl] at hb
              cases hb
            · rw [if_neg hax]
              exact hb
          · intro x hx
            exact mem_insertSet_of_mem a hx
          · intro _
            refine ⟨false, ?_⟩
            rw [lookupChecked_cons, if_pos rfl]

/-- Folding `processApprovee` over a sublist of the approvees preserves
the phase-1 invariant conjuncts and records every non-entry-point element
of the list in `txsChecked`. -/
theorem processApprovee_foldl_inv (w : World) (root h : String) (t : Transaction)
    (hlook : getCachedTransaction w h = some t) (hreach : Reach w root h) :
    ∀ (L : List String), (∀ a ∈ L, a ∈ approveeHashes t) →
    ∀ (st : P1State) (ie : Bool),
      ReqSub w root st → CheckedClass w root st → TravReach w root st →
      ReqSub w root (L.foldl (processApprovee w t.hash) (st, ie)).1 ∧
      CheckedClass w root (L.foldl (processApprovee w t.hash) (st, ie)).1 ∧
      TravReach w root (L.foldl (processApprovee w t.hash) (st, ie)).1 ∧
      (L.foldl (processApprovee w t.hash) (st, ie)).1.processed = st.processed ∧
      (L.foldl (processApprovee w t.hash) (st, ie)).1.entryTxs = st.entryTxs ∧
      (∀ x b, lookupChecked st.txsChecked x = some b →
        lookupChecked (L.foldl (processApprovee w t.hash) (st, ie)).1.txsChecked x = some b) ∧
      (∀ x ∈ st.txsToRequest, x ∈ (L.foldl (processApprovee w t.hash) (st, ie)).1.txsToRequest) ∧
      (∀ x ∈ st.txsToTraverse, x ∈ (L.foldl (processApprovee w t.hash) (st, ie)).1.txsToTraverse) ∧
      (∀ a ∈ L, solidEntryPointsContain w a = false →
        ∃ b, lookupChecked (L.foldl (processApprovee w t.hash) (st, ie)).1.txsChecked a = some b) := by
  intro L
  induction L with
  | nil =>
    intro _ st ie hreq hchk htrav
    exact ⟨hreq, hchk, htrav, rfl, rfl, fun x b hb => hb, fun x hx => hx, fun x hx => hx,
      fun a ha => absurd ha (List.not_mem_nil a)⟩
  | cons a rest ih =>
    intro hL st ie hreq hchk htrav
    have hstep := processApprovee_inv w root h t hlook hreach a
      (hL a (List.mem_cons_self a rest)) st ie hreq hchk htrav
    cases hp : processApprovee w t.hash (st, ie) a with
    | mk st1 ie1 =>
      rw [hp] at hstep
      obtain ⟨hreq1, hchk1, htrav1, hproc1, hentry1, hmono1, hreqm1, htravm1, hchka⟩ := hstep
      have hrest := ih (fun x hx => hL x (List.mem_cons_of_mem a hx)) st1 ie1 hreq1 hchk1 htrav1
      obtain ⟨hreq2, hchk2, htrav2, hproc2, hentry2, hmono2, hreqm2, htravm2, hchkL⟩ := hrest
      rw [List.foldl_cons, hp]
      refine ⟨hreq2, hchk2, htrav2, by rw [hproc2]; exact hproc1,
        by rw [hentry2]; exact hentry1, ?_, ?_, ?_, ?_⟩
      · intro x b hb
        exact hmono2 x b (hmono1 x b hb)
      · intro x hx
        exact hreqm2 x (hreqm1 x hx)
      · intro x hx
        exact htravm2 x (htravm1 x hx)
      · intro x hx hepf
        rcases List.mem_cons.mp hx with hxa | hx'
        · subst hxa
          obtain ⟨b, hb⟩ := hchka hepf
          exact ⟨b, hmono2 x b hb⟩
        · exact hchkL x hx' hepf

/-- One drained transaction of phase 1 preserves the full invariant. -/
theorem processTx_inv (w : World) (root : String) (st : P1State) (h : String)
    (rest : List String) (hw : st.txsToTraverse = h :: rest) (hinv : P1Inv w root st)
    (st1 : P1State)
    (hpt : processTx w { st with txsToTraverse := rest, pollCnt := st.pollCnt + 1 } h =
      some st1) :
    P1Inv w root st1 := by
  have hreach : Reach w root h := hinv.trav h (by rw [hw]; exact List.mem_cons_self h rest)
  unfold processTx at hpt
  cases hlook : getCachedTransaction w h with
  | none => rw [hlook] at hpt; cases hpt
  | some t =>
    rw [hlook] at hpt
    dsimp only at hpt
    have hreq0 : ReqSub w root
        { st with txsToTraverse := rest, pollCnt := st.pollCnt + 1,
                  processed := insertSet h st.processed } :=
      fun x hx => hinv.req x hx
    have hchk0 : CheckedClass w root
        { st with txsToTraverse := rest, pollCnt := st.pollCnt + 1,
                  processed := insertSet h st.processed } := by
      intro x b hb
      obtain ⟨h1, h2, h3, h4⟩ := hinv.chk x b hb
      refine ⟨h1, h2, h3, ?_⟩
      intro hb0
      obtain ⟨h5, h6⟩ := h4 hb0
      refine ⟨h5, ?_⟩
      intro tx htx
      obtain ⟨h7, h8⟩ := h6 tx htx
      refine ⟨h7, ?_⟩
      rcases h8 with hp | ht
      · exact Or.inl (mem_insertSet_of_mem h hp)
      · rw [hw] at ht
        rcases List.mem_cons.mp ht with hxh | hxr
        · exact Or.inl (hxh ▸ mem_insertSet_self h st.processed)
        · exact Or.inr hxr
    have htrav0 : TravReach w root
        { st with txsToTraverse := rest, pollCnt := st.pollCnt + 1,
                  processed := insertSet h st.processed } := by
      intro x hx
      exact hinv.trav x (by rw [hw]; exact List.mem_cons_of_mem h hx)
    have hfold := processApprovee_foldl_inv w root h t hlook hreach (approveeHashes t)
      (fun a ha => ha)
      { st with txsToTraverse := rest, pollCnt := st.pollCnt + 1,
                processed := insertSet h st.processed } true hreq0 hchk0 htrav0
    cases hf : (approveeHashes t).foldl (processApprovee w t.hash)
        ({ st with txsToTraverse := rest, pollCnt := st.pollCnt + 1,
                   processed := insertSet h st.processed }, true) with
    | mk stF ieF =>
      rw [hf] at hfold
      rw [hf] at hpt
      dsimp only at hpt
      obtain ⟨hreqF, hchkF, htravF, hprocF, hentryF, hmonoF, hreqmF, htravmF, hchkAll⟩ := hfold
      have hprocessedF : stF.processed = insertSet h st.processed := hprocF
      have hinvF : P1Inv w root stF := by
        refine ⟨hreqF, hchkF, htravF, ?_, ?_⟩
        · rcases hinv.root_tracked with hp | ht
          · exact Or.inl (hprocessedF ▸ mem_insertSet_of_mem h hp)
          · rw [hw] at ht
            rcases List.mem_cons.mp ht with hxh | hxr
            · exact Or.inl (hprocessedF ▸ (hxh ▸ mem_insertSet_self h st.processed))
            · exact Or.inr (htravmF root hxr)
        · intro h' hh'
          rw [hprocessedF] at hh'
          rcases mem_of_mem_insertSet hh' with hh | hh
          · subst hh
            exact ⟨t, hlook, fun a ha hepf => hchkAll a ha hepf⟩
          · obtain ⟨t', hlk', hall⟩ := hinv.proc h' hh
            exact ⟨t', hlk', fun a ha hepf => by
              obtain ⟨b, hb⟩ := hall a ha hepf
              exact ⟨b, hmonoF a b hb⟩⟩
      by_cases hie : ieF = true
      · rw [hie] at hpt
        simp only [if_true] at hpt
        cases hpt
        refine ⟨fun x hx => hinvF.req x hx, ?_, fun x hx => hinvF.trav x hx,
          hinvF.root_tracked, ?_⟩
        · intro x b hb
          obtain ⟨h1, h2, h3, h4⟩ := hinvF.chk x b hb
          exact ⟨h1, h2, h3, h4⟩
        · intro h' hh'
          exact hinvF.proc h' hh'
      · have hie' : ieF = false := by simpa using hie
        rw [hie'] at hpt
        have hpt2 : stF = st1 := by
          have h0 := Option.some.inj hpt
          simpa using h0
        exact hpt2 ▸ hinvF

/-- The phase-1 drain loop preserves the invariant, and on a `finished`
outcome the worklist is empty. -/
theorem phase1Loop_inv (w : World) (root : String) (abortFn : Nat → Bool) :
    ∀ (fuel : Nat) (st : P1State), P1Inv w root st →
      ∀ stF, phase1Loop w abortFn fuel st = .finished stF →
        P1Inv w root stF ∧ stF.txsToTraverse = [] := by
  intro fuel
  induction fuel with
  | zero =>
    intro st hinv stF hrun
    rw [phase1Loop] at hrun
    split at hrun
    · rename_i heq
      cases hrun
      exact ⟨hinv, heq⟩
    · cases hrun
  | succ f ih =>
    intro st hinv stF hrun
    rw [phase1Loop] at hrun
    split at hrun
    · rename_i heq
      cases hrun
      exact ⟨hinv, heq⟩
    · rename_i h rest heq
      split at hrun
      · cases hrun
      · rename_i f2 hf2
        have hff : f2 = f := by omega
        subst hff
        split at hrun
        · cases hrun
        · split at hrun
          · cases hrun
          · rename_i st' hpt
            exact ih st' (processTx_inv w root st h rest heq hinv st' hpt) stF hrun

/-- After a completed phase 1, every reachable hash was drained, or is
cached solid, or is absent and requested — provided the shared state is
solidity-closed (a solid transaction's approvees are entry points or
cached solid). -/
theorem phase1_reach_classify (w : World) (root : String) (stF : P1State)
    (hclosed : ∀ t ∈ w.cache, t.solid = true → ∀ a ∈ approveeHashes t,
      solidEntryPointsContain w a = true ∨ cachedSolid w a)
    (hinv : P1Inv w root stF) (hempty : stF.txsToTraverse = []) :
    ∀ x, Reach w root x → x ∈ stF.processed ∨ cachedSolid w x ∨
      (getCachedTransaction w x = none ∧ x ∈ stF.txsToRequest) := by
  intro x hx
  induction hx with
  | refl =>
    rcases hinv.root_tracked with hp | ht
    · exact Or.inl hp
    · rw [hempty] at ht
      exact absurd ht (List.not_mem_nil root)
  | @step h a t hr hlk hmem hepf ih =>
    rcases ih with hp | hcs | ⟨habs, _⟩
    · obtain ⟨t', hlk', hall⟩ := hinv.proc _ hp
      have ht' : t' = t := by
        rw [hlk] at hlk'
        exact (Option.some.inj hlk').symm
      obtain ⟨b, hb⟩ := hall a (by rw [ht']; exact hmem) hepf
      obtain ⟨_, _, hbt, hbf⟩ := hinv.chk a b hb
      cases b with
      | true => exact Or.inr (Or.inl (hbt rfl))
      | false =>
        obtain ⟨h5, h6⟩ := hbf rfl
        cases hca : getCachedTransaction w a with
        | none => exact Or.inr (Or.inr ⟨rfl, h5 hca⟩)
        | some tx =>
          obtain ⟨_, h8⟩ := h6 tx hca
          rcases h8 with hp' | ht'
          · exact Or.inl hp'
          · rw [hempty] at ht'
            exact absurd ht' (List.not_mem_nil a)
    · obtain ⟨th', hlk', hsol⟩ := hcs
      have ht' : th' = t := by
        rw [hlk] at hlk'
        exact (Option.some.inj hlk').symm
      have hcl := hclosed t (getCached_mem hlk) (by rw [← ht']; exact hsol) a hmem
      rcases hcl with hep | hcs'
      · rw [hepf] at hep
        cases hep
      · exact Or.inr (Or.inl hcs')
    · rw [habs] at hlk
      cases hlk

/-- C8: for every walk that returns `(false, false)`, the set of hashes
passed to `gossip.RequestMulti` is exactly the set of ancestors reachable
from the milestone tail (along approvee edges, stopping at solid entry
points) that are absent from the cache — no absent reachable ancestor is
omitted and no present or entry-point hash is requested. The shared state
is assumed solidity-closed: every cached solid transaction's approvees are
entry points or cached solid, which the system's solidification order
maintains. -/
theorem solidQueueCheck_requests_exact
    (w : World) (msIdx : Nat) (th : String) (abortFn : Nat → Bool) (f1 f2 : Nat)
    (hclosed : ∀ t ∈ w.cache, t.solid = true → ∀ a ∈ approveeHashes t,
      solidEntryPointsContain w a = true ∨ cachedSolid w a)
    (w' : World) (ev : List Event) (rq sb : List String)
    (hrun : solidQueueCheck w msIdx th abortFn f1 f2 = .done false false w' ev rq sb) :
    ∀ x, x ∈ rq ↔ (Reach w th x ∧ getCachedTransaction w x = none ∧
      solidEntryPointsContain w x = false) := by
  have hinit : P1Inv w th (initialP1State th) := by
    refine ⟨?_, ?_, ?_, ?_, ?_⟩
    · intro x hx
      exact absurd hx (List.not_mem_nil x)
    · intro x b hb
      cases hb
    · intro x hx
      have : x = th := by simpa [initialP1State] using hx
      exact this ▸ Reach.refl
    · exact Or.inr (by simp [initialP1State])
    · intro h hh
      exact absurd hh (List.not_mem_nil h)
  unfold solidQueueCheck at hrun
  split at hrun
  · cases hrun
  · cases hrun
  · cases hrun
  · rename_i stF h1
    obtain ⟨hinv, hempty⟩ := phase1Loop_inv w th abortFn f1 (initialP1State th) hinit stF h1
    have hclassify := phase1_reach_classify w th stF hclosed hinv hempty
    split at hrun
    · rename_i x0 xs0 hreqs
      cases hrun
      intro x
      constructor
      · intro hx
        exact hinv.req x hx
      · rintro ⟨hr, habs, _⟩
        rcases hclassify x hr with hp | hcs | ⟨_, hin⟩
        · obtain ⟨t', hlk', _⟩ := hinv.proc x hp
          rw [habs] at hlk'
          cases hlk'
        · obtain ⟨t', hlk', _⟩ := hcs
          rw [habs] at hlk'
          cases hlk'
        · exact hin
    · rename_i hreqs
      have hrq : rq = [] := by
        split at hrun
        · cases hrun
        · split at hrun
          · cases hrun
          · cases hrun
          · injection hrun with e1 e2 e3 e4 e5 e6
            cases e2
          · injection hrun with e1 e2 e3 e4 e5 e6
            exact e5.symm
      subst hrq
      intro x
      constructor
      · intro hx
        exact absurd hx (List.not_mem_nil x)
      · rintro ⟨hr, habs, _⟩
        rcases hclassify x hr with hp | hcs | ⟨_, hin⟩
        · obtain ⟨t', hlk', _⟩ := hinv.proc x hp
          rw [habs] at hlk'
          cases hlk'
        · obtain ⟨t', hlk', _⟩ := hcs
          rw [habs] at hlk'
          cases hlk'
        · rw [hreqs] at hin
          exact absurd hin (List.not_mem_nil x)

/-- A world whose milestone tail `T1` has an absent trunk `T0` and the
entry point `E` as branch (scenario S2 of the spec). -/
def wMissing : World :=
  ⟨[⟨"T1", "T0", "E", true, false, false, none⟩], ["E"], [], false⟩

/-- C8, witness: on `wMissing` the walk returns `(false, false)` requesting
exactly `["T0"]`, and the theorem yields that `T0` is an absent reachable
non-entry ancestor of the tail. -/
theorem solidQueueCheck_requests_exact_witness :
    Reach wMissing "T1" "T0" ∧ getCachedTransaction wMissing "T0" = none ∧
      solidEntryPointsContain wMissing "T0" = false := by
  have h1 : phase1Loop wMissing (fun _ => false) 5 (initialP1State "T1") =
      .finished ⟨[("T0", false)], [], [("T0", ["T1"])], [], ["T0"], ["T1"], 1⟩ := by rfl
  have hrun : solidQueueCheck wMissing 1 "T1" (fun _ => false) 5 5 =
      .done false false wMissing [] ["T0"] [] := by
    unfold solidQueueCheck
    simp only [h1]
  refine (solidQueueCheck_requests_exact wMissing 1 "T1" (fun _ => false) 5 5
    ?_ wMissing [] ["T0"] [] hrun "T0").mp (by decide)
  intro t ht hsol
  have hteq : t = ⟨"T1", "T0", "E", true, false, false, none⟩ := by
    simpa [wMissing] using ht
  rw [hteq] at hsol
  exact absurd hsol (by decide)

/-! ## C10 — termination of `solidQueueCheck` -/

theorem insertSet_nodup {l : List String} (h : String) (hnd : l.Nodup) :
    (insertSet h l).Nodup := by
  unfold insertSet
  split
  · exact hnd
  · exact List.nodup_cons.mpr ⟨by assumption, hnd⟩

theorem removeSet_nodup {l : List String} (e : String) (hnd : l.Nodup) :
    (removeSet l e).Nodup := List.Nodup.filter _ hnd

theorem mem_removeSet {l : List String} {x e : String} :
    x ∈ removeSet l e ↔ x ∈ l ∧ x ≠ e := by
  unfold removeSet
  rw [List.mem_filter]
  constructor
  · rintro ⟨h1, h2⟩
    refine ⟨h1, ?_⟩
    intro hx
    subst hx
    simp at h2
  · rintro ⟨h1, h2⟩
    refine ⟨h1, ?_⟩
    simpa using h2

/-- The pool of hashes phase 1 can record in `txsChecked`: all approvee
hashes of cached transactions, without duplicates. -/
def approveePool (w : World) : List String := (w.cache.bind approveeHashes).dedup

theorem mem_approveePool {w : World} {t : Transaction} {a : String}
    (ht : t ∈ w.cache) (ha : a ∈ approveeHashes t) : a ∈ approveePool w := by
  unfold approveePool
  rw [List.mem_dedup, List.mem_bind]
  exact ⟨t, ht, ha⟩

/-- The number of pool hashes not yet recorded in `txsChecked`. -/
def countUnchecked (w : World) (chk : List (String × Bool)) : Nat :=
  ((approveePool w).filter (fun a => (lookupChecked chk a).isNone)).length

/-- Flipping one present element of a duplicate-free list from a filter
increases the other filter's length by exactly one. -/
theorem filter_length_update (l : List String) (hnd : l.Nodup) (a : String) (ha : a ∈ l)
    (p q : String → Bool) (hpq : ∀ x ∈ l, x ≠ a → p x = q x)
    (hpa : p a = false) (hqa : q a = true) :
    (l.filter p).length + 1 = (l.filter q).length := by
  induction l with
  | nil => cases ha
  | cons y ys ih =>
    have hndt : ys.Nodup := (List.nodup_cons.mp hnd).2
    rcases List.mem_cons.mp ha with hya | hmem
    · subst hya
      have hns : a ∉ ys := (List.nodup_cons.mp hnd).1
      have hfil : ys.filter p = ys.filter q := by
        apply List.filter_congr
        intro x hx
        exact hpq x (List.mem_cons_of_mem a hx) (fun hxa => hns (hxa ▸ hx))
      rw [List.filter_cons, List.filter_cons, hpa, hqa]
      simp [hfil]
    · have hya : y ≠ a := fun h => (List.nodup_cons.mp hnd).1 (h ▸ hmem)
      have hpy : p y = q y := hpq y (List.mem_cons_self y ys) hya
      have hstep := ih hndt hmem (fun x hx hxa => hpq x (List.mem_cons_of_mem y hx) hxa)
      rw [List.filter_cons, List.filter_cons, hpy]
      by_cases hq : q y = true
      · simp only [hq, if_true, List.length_cons]
        omega
      · simp only [Bool.not_eq_true] at hq
        simp only [hq]
        exact hstep

/-- Recording a fresh pool hash in `txsChecked` decreases
`countUnchecked` by one. -/
theorem countUnchecked_cons (w : World) (chk : List (String × Bool)) (a : String) (b : Bool)
    (ha : a ∈ approveePool w) (hnone : lookupChecked chk a = none) :
    countUnchecked w ((a, b) :: chk) + 1 = countUnchecked w chk := by
  unfold countUnchecked
  apply filter_length_update (approveePool w) (List.nodup_dedup _) a ha
  · intro x _ hxa
    rw [lookupChecked_cons]
    rw [if_neg (fun h => hxa h.symm)]
  · rw [lookupChecked_cons, if_pos rfl]
    rfl
  · rw [hnone]
    rfl

/-- Inserting into a set list grows its length by at most one. -/
theorem insertSet_length (h : String) (l : List String) :
    (insertSet h l).length ≤ l.length + 1 := by
  unfold insertSet
  split
  · omega
  · simp

/-- The phase-1 termination measure: worklist length plus twice the
unchecked pool count. -/
def p1Measure (w : World) (st : P1State) : Nat :=
  st.txsToTraverse.length + 2 * countUnchecked w st.txsChecked

/-- One `processApprovee` step does not increase the measure, provided the
approvee lies in the pool. -/
theorem processApprovee_measure (w : World) (selfHash a : String) (st : P1State) (ie : Bool)
    (hpool : a ∈ approveePool w) :
    p1Measure w (processApprovee w selfHash (st, ie) a).1 ≤ p1Measure w st := by
  by_cases hep : solidEntryPointsContain w a = true
  · have heq : processApprovee w selfHash (st, ie) a = (st, ie) := by
      unfold processApprovee
      rw [if_pos hep]
    rw [heq]
  · cases hl : lookupChecked st.txsChecked a with
    | some b0 =>
      have heq : processApprovee w selfHash (st, ie) a =
          ({ st with approvers := registerApprover st.approvers a selfHash }, ie && b0) := by
        unfold processApprovee
        rw [if_neg hep, hl]
      rw [heq]
      exact le_refl _
    | none =>
      cases hca : getCachedTransaction w a with
      | none =>
        have heq : processApprovee w selfHash (st, ie) a =
            ({ st with approvers := registerApprover st.approvers a selfHash,
                       txsToRequest := insertSet a st.txsToRequest,
                       txsChecked := (a, false) :: st.txsChecked }, false) := by
          unfold processApprovee
          rw [if_neg hep, hl, hca]
        rw [heq]
        have hdec := countUnchecked_cons w st.txsChecked a false hpool hl
        show st.txsToTraverse.length + 2 * countUnchecked w ((a, false) :: st.txsChecked) ≤
          st.txsToTraverse.length + 2 * countUnchecked w st.txsChecked
        omega
      | some ta =>
        by_cases hsol : ta.solid = true
        · have heq : processApprovee w selfHash (st, ie) a =
              ({ st with approvers := registerApprover st.approvers a selfHash,
                         txsChecked := (a, true) :: st.txsChecked }, ie) := by
            unfold processApprovee
            rw [if_neg hep, hl, hca]
            simp only [hsol, if_true]
          rw [heq]
          have hdec := countUnchecked_cons w st.txsChecked a true hpool hl
          show st.txsToTraverse.length + 2 * countUnchecked w ((a, true) :: st.txsChecked) ≤
            st.txsToTraverse.length + 2 * countUnchecked w st.txsChecked
          omega
        · have hsf : ta.solid = false := by simpa using hsol
          have heq : processApprovee w selfHash (st, ie) a =
              ({ st with approvers := registerApprover st.approvers a selfHash,
                         txsChecked := (a, false) :: st.txsChecked,
                         txsToTraverse := insertSet a st.txsToTraverse }, false) := by
            unfold processApprovee
            rw [if_neg hep, hl, hca]
            simp only [hsf]
            rfl
          rw [heq]
          have hdec := countUnchecked_cons w st.txsChecked a false hpool hl
          have hlen := insertSet_length a st.txsToTraverse
          show (insertSet a st.txsToTraverse).length +
              2 * countUnchecked w ((a, false) :: st.txsChecked) ≤
            st.txsToTraverse.length + 2 * countUnchecked w st.txsChecked
          omega

/-- Folding `processApprovee` over pool approvees does not increase the
measure. -/
theorem processApprovee_foldl_measure (w : World) (selfHash : String) :
    ∀ (L : List String), (∀ a ∈ L, a ∈ approveePool w) →
    ∀ (st : P1State) (ie : Bool),
      p1Measure w (L.foldl (processApprovee w selfHash) (st, ie)).1 ≤ p1Measure w st := by
  intro L
  induction L with
  | nil => intro _ st ie; exact le_refl _
  | cons a rest ih =>
    intro hL st ie
    rw [List.foldl_cons]
    cases hp : processApprovee w selfHash (st, ie) a with
    | mk st1 ie1 =>
      have h1 : p1Measure w st1 ≤ p1Measure w st := by
        have := processApprovee_measure w selfHash a st ie (hL a (List.mem_cons_self a rest))
        rw [hp] at this
        exact this
      exact le_trans (ih (fun x hx => hL x (List.mem_cons_of_mem a hx)) st1 ie1) h1

/-- One drained transaction does not increase the measure (the drain
itself decreases it by one, accounted for by the caller). -/
theorem processTx_measure (w : World) (st : P1State) (h : String) (st' : P1State)
    (hpt : processTx w st h = some st') :
    p1Measure w st' ≤ p1Measure w st := by
  unfold processTx at hpt
  cases hlook : getCachedTransaction w h with
  | none => rw [hlook] at hpt; cases hpt
  | some t =>
    rw [hlook] at hpt
    dsimp only at hpt
    have hpool : ∀ a ∈ approveeHashes t, a ∈ approveePool w :=
      fun a ha => mem_approveePool (getCached_mem hlook) ha
    cases hf : (approveeHashes t).foldl (processApprovee w t.hash)
        ({ st with processed := insertSet h st.processed }, true) with
    | mk stF ieF =>
      rw [hf] at hpt
      dsimp only at hpt
      have hmeas : p1Measure w stF ≤ p1Measure w st := by
        have := processApprovee_foldl_measure w t.hash (approveeHashes t) hpool
          { st with processed := insertSet h st.processed } true
        rw [hf] at this
        exact this
      by_cases hie : ieF = true
      · rw [hie] at hpt
        simp only [if_true] at hpt
        cases hpt
        exact hmeas
      · have hie' : ieF = false := by simpa using hie
        rw [hie'] at hpt
        have hpt2 : stF = st' := by
          have h0 := Option.some.inj hpt
          simpa using h0
        exact hpt2 ▸ hmeas

/-- Fuel equal to the measure suffices for the phase-1 drain loop: it never
runs out of fuel. -/
theorem phase1Loop_term (w : World) (abortFn : Nat → Bool) :
    ∀ (fuel : Nat) (st : P1State), p1Measure w st ≤ fuel →
      phase1Loop w abortFn fuel st ≠ .outOfFuel := by
  intro fuel
  induction fuel with
  | zero =>
    intro st hm hcon
    rw [phase1Loop] at hcon
    split at hcon
    · cases hcon
    · rename_i h rest heq
      unfold p1Measure at hm
      rw [heq] at hm
      simp [List.length_cons] at hm
  | succ f ih =>
    intro st hm hcon
    rw [phase1Loop] at hcon
    split at hcon
    · cases hcon
    · rename_i h rest heq
      have hcon2 : (if abortFn st.pollCnt = true then
            P1Out.aborted { st with pollCnt := st.pollCnt + 1 }
          else
            match processTx w { st with txsToTraverse := rest, pollCnt := st.pollCnt + 1 } h with
            | none => P1Out.panicked
            | some st1 => phase1Loop w abortFn f st1) = P1Out.outOfFuel := hcon
      clear hcon
      split at hcon2
      · cases hcon2
      · split at hcon2
        · cases hcon2
        · rename_i st' hpt
          have hm' : p1Measure w st' ≤ f := by
            have hstep := processTx_measure w
              { st with txsToTraverse := rest, pollCnt := st.pollCnt + 1 } h st' hpt
            have hpop : p1Measure w
                { st with txsToTraverse := rest, pollCnt := st.pollCnt + 1 } + 1 =
                p1Measure w st := by
              show rest.length + 2 * countUnchecked w st.txsChecked + 1 =
                st.txsToTraverse.length + 2 * countUnchecked w st.txsChecked
              rw [heq, List.length_cons]
              omega
            omega
          exact ih st' hm' hcon2
